import Mathlib

/-!
# The CIFAR experiment of slidingrbf: accuracy evaluator and driver

A shallow embedding of `experiments/cifar/main.go`.

* Vectors of the numeric backend (`anyvec32`) are lists of rationals: every
  finite float is a rational, and the quantities the evaluator accumulates
  (`correct`, `total`) are small whole numbers, on which float arithmetic is
  exact.  A float `NaN` (the quotient `0/0`) is the value `none`.
* The quotient of the final log line is given twice: `Report.reported` is
  the exact value of `100*correct/total`, `Report.printed` is its binary64
  value, each of the two operations rounded to the nearest double, ties to
  even (`roundFloat64`).
* A Go panic is the outcome `panic`; a loop that has not finished within the
  given number of iterations is the outcome `outOfFuel`.
* Sample counts and the batch size are natural numbers: the loop computes
  `i + batch` only at `i = 0` or with `batch ≤ i ≤ len` (`loop_sum_bounded`),
  so the sum stays below the 64-bit limit for every list that fits in
  memory, and a negative batch size makes `MakeVector` panic before the loop
  is entered.
-/

namespace Cifar

/-! ## Numeric vector backend (package anyvec32, used through its interface) -/

/-- A dense vector of the backend. -/
abbrev Vec := List ℚ

/-- Result of running code that can panic or loop. -/
inductive Outcome (α : Type) where
  | done (a : α)
  | panic
  | outOfFuel

/-- The call `anyvec32.MakeVector(n)`: a zero vector of length `n`. -/
def MakeVector (n : Nat) : Vec := List.replicate n 0

/-- The call `v.AddScaler(s)`: adds `s` to every component. -/
def AddScaler (v : Vec) (s : ℚ) : Vec := v.map (fun x => x + s)

/-- The call `Creator.Concat(vs...)`: the vectors one after the other. -/
def Concat : List Vec → Vec
  | [] => []
  | v :: vs => v ++ Concat vs

/-- Sum of the componentwise products of two vectors. -/
def dotSum : Vec → Vec → ℚ
  | x :: xs, y :: ys => x * y + dotSum xs ys
  | _, _ => 0

/-- The call `a.Dot(b)`; the backend panics when the lengths differ. -/
def Dot (a b : Vec) : Option ℚ :=
  if a.length = b.length then some (dotSum a b) else none

/-- Scan of a row for its largest entry: `best` at `bestIdx` is the largest
so far (the first one among equals), `i` is the index of the next entry. -/
def maxIndexFrom (best : ℚ) (bestIdx i : Nat) : List ℚ → Nat
  | [] => bestIdx
  | x :: xs =>
    if best < x then maxIndexFrom x i (i + 1) xs
    else maxIndexFrom best bestIdx (i + 1) xs

/-- Index of the largest entry of a row (the first one among equals). -/
def maxIndex : Vec → Nat
  | [] => 0
  | x :: xs => maxIndexFrom x 0 1 xs

/-- A mapper of the backend: entry `i` of `table` is the source index that
output `i` reads, `inSize` is the length of the source vector. -/
structure Mapper where
  table : List Nat
  inSize : Nat

/-- Row `j` of a vector laid out in rows of `cols` entries. -/
def row (v : Vec) (cols j : Nat) : Vec := (v.drop (j * cols)).take cols

/-- The call `anyvec.MapMax(v, cols)`: for every row of `cols` entries the
index (into `v`) of the row's largest entry; panics when `cols` does not
divide the length of `v`. -/
def MapMax (v : Vec) (cols : Nat) : Option Mapper :=
  if cols = 0 ∨ v.length % cols ≠ 0 then none
  else some ⟨(List.range (v.length / cols)).map
      (fun j => j * cols + maxIndex (row v cols j)), v.length⟩

/-- The transposed mapping: `out[table[i]] += inp[i]` for every `i`. -/
def scatterAdd : List Nat → Vec → Vec → Vec
  | t :: ts, x :: xs, out => scatterAdd ts xs (out.set t (out.getD t 0 + x))
  | _, _, out => out

/-- The call `m.MapTranspose(inp, out)`; panics on a size mismatch. -/
def Mapper.MapTranspose (m : Mapper) (inp out : Vec) : Option Vec :=
  if inp.length = m.table.length ∧ out.length = m.inSize then
    some (scatterAdd m.table inp out)
  else none

/-! ## Samples, batches, networks -/

/-- A labelled example (`anyff.Sample`): input vector and expected output. -/
structure Sample where
  Input : Vec
  Output : Vec

/-- A minibatch (`anyff.Batch`): stacked inputs and stacked expected outputs. -/
structure Batch where
  Inputs : Vec
  Outputs : Vec

/-- The call `samples.Slice(i, j)`; panics when the range is out of bounds. -/
def Slice {α : Type} (samples : List α) (i j : Nat) : Option (List α) :=
  if i ≤ j ∧ j ≤ samples.length then some ((samples.drop i).take (j - i))
  else none

/-- The call `fetcher.Fetch(slice)`: stacks inputs and expected outputs.
The source discards the error result of the call. -/
def Fetch (sl : List Sample) : Batch :=
  ⟨Concat (sl.map Sample.Input), Concat (sl.map Sample.Output)⟩

/-- A network seen through `net.Apply(ins, batch).Output()`: `none` is a
panic inside the forward pass. -/
abbrev Net := Vec → Nat → Option Vec

/-! ## printSuccessRate -/

/-- The loop variables `correct` and `total`, and the log of the index
ranges handed to `samples.Slice` so far. -/
structure EvalState where
  correct : ℚ
  total : ℚ
  slices : List (Nat × Nat)

/-- One pass through the loop body (source lines 121-131) at index `i`. -/
def batchStep (net : Net) (samples : List Sample) (batch : Nat) (ones : Vec)
    (i : Nat) (st : EvalState) : Option EvalState :=
  match Slice samples i (i + batch) with
  | none => none
  | some sl =>
    let b := Fetch sl
    let ins := b.Inputs
    let desired := b.Outputs
    match net ins batch with
    | none => none
    | some outs =>
      match MapMax outs 10 with
      | none => none
      | some mapper =>
        let maxes := MakeVector desired.length
        match mapper.MapTranspose ones maxes with
        | none => none
        | some maxes1 =>
          match Dot maxes1 desired with
          | none => none
          | some d =>
            some ⟨st.correct + d, st.total + (batch : ℚ), st.slices ++ [(i, i + batch)]⟩

/-- The loop `for i := 0; i+batch <= samples.Len(); i += batch`, started at
index `i` in state `st`, for at most `fuel` evaluations of its condition. -/
def batchLoop (net : Net) (samples : List Sample) (batch : Nat) (ones : Vec) :
    Nat → Nat → EvalState → Outcome EvalState
  | 0, _, _ => Outcome.outOfFuel
  | fuel + 1, i, st =>
    if i + batch ≤ samples.length then
      match batchStep net samples batch ones i st with
      | none => Outcome.panic
      | some st1 => batchLoop net samples batch ones fuel (i + batch) st1
    else Outcome.done st

/-- The exact value of the expression `100*correct/total` of the final log
line, before any rounding; the float quotient `0/0` is `NaN`, rendered as
`none`.  The binary64 value of the expression is `lineFloat64`. -/
def percent (correct total : ℚ) : Option ℚ :=
  if total = 0 then none else some (100 * correct / total)

/-- What a completed run of `printSuccessRate` leaves behind: the loop
variables, the log of slices, and the exact value of `100*correct/total`. -/
structure Report where
  correct : ℚ
  total : ℚ
  slices : List (Nat × Nat)
  reported : Option ℚ

/-- The function `printSuccessRate(net, samples, batch)`. -/
def printSuccessRate (fuel : Nat) (net : Net) (samples : List Sample)
    (batch : Nat) : Outcome Report :=
  let ones := AddScaler (MakeVector batch) 1
  match batchLoop net samples batch ones fuel 0 ⟨0, 0, []⟩ with
  | Outcome.done st =>
    Outcome.done ⟨st.correct, st.total, st.slices, percent st.correct st.total⟩
  | Outcome.panic => Outcome.panic
  | Outcome.outOfFuel => Outcome.outOfFuel

/-! ## Vocabulary of the evaluator's specification -/

/-- The one-hot vector of length `n` with its `1` at index `c`. -/
def oneHot (n c : Nat) : Vec := (List.range n).map (fun k => if k = c then 1 else 0)

/-- Index of the first `1` of a label vector. -/
def hotIndex (v : Vec) : Nat := v.indexOf 1

/-- A label is a one-hot vector over the 10 classes. -/
def IsOneHot (v : Vec) : Prop := hotIndex v < 10 ∧ v = oneHot 10 (hotIndex v)

instance (v : Vec) : Decidable (IsOneHot v) := by
  unfold IsOneHot; infer_instance

/-- Every example carries a one-hot label over the 10 classes. -/
def LabelsOK (samples : List Sample) : Prop := ∀ s ∈ samples, IsOneHot s.Output

instance (samples : List Sample) : Decidable (LabelsOK samples) := by
  unfold LabelsOK; infer_instance

/-- Start indices `0, b, 2b, ...` of the `n / b` full batches. -/
def batchStarts (batch n : Nat) : List Nat :=
  (List.range (n / batch)).map (fun k => k * batch)

/-- The examples of the batch that starts at index `i`. -/
def batchAt (samples : List Sample) (batch i : Nat) : List Sample :=
  (samples.drop i).take batch

/-- Output of the network on the batch that starts at index `i`. -/
def batchOuts (net : Net) (samples : List Sample) (batch i : Nat) : Option Vec :=
  net (Fetch (batchAt samples batch i)).Inputs batch

/-- The network returns `10` values per example on every full batch. -/
def ShapeOK (net : Net) (samples : List Sample) (batch : Nat) : Prop :=
  ∀ i ∈ batchStarts batch samples.length,
    (batchOuts net samples batch i).map List.length = some (batch * 10)

instance (net : Net) (samples : List Sample) (batch : Nat) :
    Decidable (ShapeOK net samples batch) := by
  unfold ShapeOK; infer_instance

/-- Row `j` of the output is classified as the class of example `j`. -/
def rowCorrect (outs : Vec) (sl : List Sample) (j : Nat) : Prop :=
  maxIndex (row outs 10 j) = hotIndex ((sl.map Sample.Output).getD j [])

instance (outs : Vec) (sl : List Sample) (j : Nat) : Decidable (rowCorrect outs sl j) := by
  unfold rowCorrect; infer_instance

/-- Number of rows of `outs` whose arg-max index is the class of the
example of the same position in `sl`. -/
def rowMatches (outs : Vec) (sl : List Sample) : Nat :=
  (List.range sl.length).countP (fun j => decide (rowCorrect outs sl j))

/-- Number of correctly classified examples of the batch starting at `i`. -/
def matchesAt (net : Net) (samples : List Sample) (batch i : Nat) : Nat :=
  match batchOuts net samples batch i with
  | none => 0
  | some outs => rowMatches outs (batchAt samples batch i)

/-- Number of correctly classified examples among all evaluated batches. -/
def matchCount (net : Net) (samples : List Sample) (batch : Nat) : Nat :=
  ((batchStarts batch samples.length).map (matchesAt net samples batch)).sum

/-- Every label vector has `10` entries. -/
def LabelShapeOK (samples : List Sample) : Prop := ∀ s ∈ samples, s.Output.length = 10

instance (samples : List Sample) : Decidable (LabelShapeOK samples) := by
  unfold LabelShapeOK; infer_instance

/-- The value the dot product of one batch takes: for every row the entry
of the expected outputs at the row's arg-max position. -/
def batchScore (outs : Vec) (sl : List Sample) : ℚ :=
  ((List.range sl.length).map
    (fun j => (Fetch sl).Outputs.getD (j * 10 + maxIndex (row outs 10 j)) 0)).sum

/-- The value added to `correct` by the batch starting at `i`. -/
def scoreAt (net : Net) (samples : List Sample) (batch i : Nat) : ℚ :=
  match batchOuts net samples batch i with
  | none => 0
  | some outs => batchScore outs (batchAt samples batch i)

/-- Number of examples in the evaluated batches. -/
def totalExamples (samples : List Sample) (batch : Nat) : Nat :=
  batch * (samples.length / batch)

/-- The specification's formula `matches / totalExamples * 100`; the float
quotient `0/0` is `NaN`, rendered as `none`. -/
def specPercent (matchesN totalN : Nat) : Option ℚ :=
  if totalN = 0 then none else some ((matchesN : ℚ) / (totalN : ℚ) * 100)

/-- Arg-max class the network gives row `j` of the batch starting at `i`. -/
def predicted (net : Net) (samples : List Sample) (batch i j : Nat) : Option Nat :=
  (batchOuts net samples batch i).map (fun outs => maxIndex (row outs 10 j))

/-- True class of example `j` of the batch starting at `i`. -/
def trueClass (samples : List Sample) (batch i j : Nat) : Nat :=
  hotIndex (((batchAt samples batch i).map Sample.Output).getD j [])

/-- The network's arg-max class is the true class on every evaluated example. -/
def AllCorrect (net : Net) (samples : List Sample) (batch : Nat) : Prop :=
  ∀ i ∈ batchStarts batch samples.length, ∀ j ∈ List.range batch,
    predicted net samples batch i j = some (trueClass samples batch i j)

instance (net : Net) (samples : List Sample) (batch : Nat) :
    Decidable (AllCorrect net samples batch) := by
  unfold AllCorrect; infer_instance

/-- The network's arg-max class differs from the true class on every
evaluated example. -/
def AllWrong (net : Net) (samples : List Sample) (batch : Nat) : Prop :=
  ∀ i ∈ batchStarts batch samples.length, ∀ j ∈ List.range batch,
    predicted net samples batch i j ≠ some (trueClass samples batch i j)

instance (net : Net) (samples : List Sample) (batch : Nat) :
    Decidable (AllWrong net samples batch) := by
  unfold AllWrong; infer_instance

/-- The index ranges `[0,b), [b,2b), ..., [(k-1)b, kb)` with `k = n / b`. -/
def fullRanges (b n : Nat) : List (Nat × Nat) :=
  (List.range (n / b)).map (fun k => (k * b, k * b + b))

/-- A network that returns its input: the scores are read off the example. -/
def idNet : Net := fun ins _ => some ins

/-- An example of class `c` whose input already scores class `p` highest. -/
def mkSample (p c : Nat) : Sample := ⟨oneHot 10 p, oneHot 10 c⟩

/-! ## The driver `main` -/

/-- A layer of a network, by its constructor call. -/
inductive Layer where
  /-- The call `slidingrbf.NewLayer(c, inW, inH, inD, fW, fH, fCount, sX, sY)`. -/
  | sliding (inW inH inD fW fH fCount sX sY : Nat)
  /-- The call `anyconv.NewBatchNorm(c, channels)`. -/
  | batchNorm (channels : Nat)
  /-- The call `anynet.NewFC(c, inCount, outCount)`. -/
  | fc (inCount outCount : Nat)
  /-- The value `anynet.LogSoftmax`. -/
  | logSoftmax
  deriving DecidableEq, Repr

/-- A network value (`anynet.Net`): its layers in order. -/
abbrev AnyNet := List Layer

/-- The network literal of source lines 56-65. -/
def fixedNet : AnyNet :=
  [Layer.sliding 32 32 3 3 3 8 2 2,
   Layer.batchNorm 8,
   Layer.sliding 15 15 8 4 4 8 1 1,
   Layer.batchNorm 8,
   Layer.sliding 12 12 8 3 3 16 2 2,
   Layer.batchNorm 16,
   Layer.fc (16 * 5 * 5) 10,
   Layer.logSoftmax]

/-- Width, height and depth of a tensor. -/
structure Shape where
  w : Nat
  h : Nat
  d : Nat
  deriving DecidableEq, Repr

/-- Number of values of a tensor. -/
def Shape.count (s : Shape) : Nat := s.w * s.h * s.d

/-- Modelled from the spec: the layer constructors live outside
`experiments/cifar/main.go`; what a layer expects and returns follows the
network shape invariant: a sliding layer declared for `inW x inH x inD`
returns `((inW - fW) / sX + 1) x ((inH - fH) / sY + 1) x fCount`, a batch
norm keeps the shape and needs its channel count to be the depth, a fully
connected layer maps `inCount` values to `outCount`, log-softmax keeps the
shape.  The result is `none` when the input is not the expected one. -/
def Layer.outShape : Layer → Shape → Option Shape
  | Layer.sliding inW inH inD fW fH fCount sX sY, s =>
    if s = ⟨inW, inH, inD⟩ then
      some ⟨(inW - fW) / sX + 1, (inH - fH) / sY + 1, fCount⟩
    else none
  | Layer.batchNorm channels, s => if s.d = channels then some s else none
  | Layer.fc inCount outCount, s =>
    if s.count = inCount then some ⟨1, 1, outCount⟩ else none
  | Layer.logSoftmax, s => some s

/-- Modelled from the spec: the shapes between the layers of a network fed
with shape `s`, one per layer, `none` when some layer does not get the shape
it expects. -/
def shapeTrace : AnyNet → Shape → Option (List Shape)
  | [], _ => some []
  | l :: ls, s =>
    match l.outShape s with
    | none => none
    | some s1 =>
      match shapeTrace ls s1 with
      | none => none
      | some rest => some (s1 :: rest)

/-- The call `cifar.NewSampleListAll(c, lists...)`: all samples of the given
shards, shard after shard. -/
def NewSampleListAll {α : Type} : List (List α) → List α
  | [] => []
  | l :: ls => l ++ NewSampleListAll ls

/-- Source lines 50-51: `lists[:5]` becomes the training set, `lists[5]` the
validation set; with fewer than six shards the indexing panics (`none`). -/
def splitShards {α : Type} (lists : List (List α)) : Option (List α × List α) :=
  if 6 ≤ lists.length then
    some (NewSampleListAll (lists.take 5), NewSampleListAll [lists.getD 5 []])
  else none

/-- The examples of one shard, each with its shard number and its offset. -/
def tagFrom {α : Type} (shard : Nat) : Nat → List α → List (Nat × Nat × α)
  | _, [] => []
  | o, x :: xs => (shard, o, x) :: tagFrom shard (o + 1) xs

/-- Every example of every shard with its position, shards numbered from `k`. -/
def tagShardsFrom {α : Type} : Nat → List (List α) → List (List (Nat × Nat × α))
  | _, [] => []
  | k, l :: ls => tagFrom k 0 l :: tagShardsFrom (k + 1) ls

/-- The values of the command-line flags after `flag.Parse()`. -/
structure Flags where
  sampleDir : String
  netPath : String
  stepSize : ℚ
  batchSize : Int
  successRate : Bool

/-- The flags given on the command line; `none` is a flag not given. -/
structure Args where
  samples : Option String
  net : Option String
  step : Option ℚ
  batch : Option Int
  successrate : Option Bool

/-- Source lines 34-39: every flag not given takes its default. -/
def parseFlags (a : Args) : Flags :=
  ⟨a.samples.getD "", a.net.getD "out_net", a.step.getD (1 / 1000),
    a.batch.getD 64, a.successrate.getD false⟩

/-- The value `anyff.Trainer` of source lines 79-84 (`Params` is
`net.Parameters()`, determined by `Net`). -/
structure Trainer where
  Net : AnyNet
  DotCost : Bool
  Average : Bool
  deriving DecidableEq

/-- The call `anysgd.ConstRater(c)`: the rate is `c` at every epoch. -/
def ConstRater (c : ℚ) : ℚ → ℚ := fun _ => c

/-- The value `anysgd.SGD` of source lines 87-102.  The status callback is
given by the list it shuffles and the end of the slice `Slice(0, end)` it
draws from it. -/
structure SGD (S : Type) where
  Fetcher : Trainer
  Gradienter : Trainer
  Adam : Bool
  Samples : List S
  Rater : ℚ → ℚ
  StatusList : List S
  StatusSliceEnd : Int
  BatchSize : Int

/-- What `main` does that is visible from outside, in order. -/
inductive Event (S : Type) where
  | log (msg : String)
  | die (msg : String)
  | indexPanic
  | evaluate (net : AnyNet) (samples : List S) (batch : Int)
  | run (s : SGD S)
  | save (path : String) (net : AnyNet)

/-- The world `main` runs in: the dataset loader, the checkpoint reader and
writer (an error message when the write fails), and whether the calls of
`printSuccessRate` and of `SGD.Run` come back. -/
structure Env (S : Type) where
  load10 : String → Except String (List (List S))
  loadAny : String → Option AnyNet
  evalReturns : Bool
  runReturns : Bool
  saveAny : String → AnyNet → Option String

/-- Source lines 79-102: the trainer and the SGD driver `main` sets up. -/
def sgdSetup {S : Type} (f : Flags) (net : AnyNet) (training validation : List S) : SGD S :=
  let t : Trainer := ⟨net, true, true⟩
  ⟨t, t, true, training, ConstRater (1 / 1000), validation, f.batchSize, 200⟩

/-- Source lines 75-110: what follows the optional evaluation. -/
def trainAndSave {S : Type} (env : Env S) (f : Flags) (net : AnyNet)
    (training validation : List S) : List (Event S) :=
  [Event.log "Setting up...", Event.log "Press ctrl+c once to stop...",
    Event.run (sgdSetup f net training validation)]
  ++ (if env.runReturns then
        [Event.log "Saving network...", Event.save f.netPath net]
        ++ (match env.saveAny f.netPath net with
            | some e => [Event.die e]
            | none => [])
      else [])

/-- Source lines 53-110, with the data sets and the flags at hand. -/
def mainWithData {S : Type} (env : Env S) (f : Flags) (training validation : List S) :
    List (Event S) :=
  let loaded := env.loadAny f.netPath
  let net : AnyNet :=
    match loaded with
    | none => fixedNet
    | some n => n
  let loadLog : Event S :=
    match loaded with
    | none => Event.log "Creating new network..."
    | some _ => Event.log "Using existing network."
  if f.successRate then
    [loadLog, Event.log "Computing success rate...",
      Event.evaluate net validation f.batchSize]
    ++ (if env.evalReturns then trainAndSave env f net training validation else [])
  else
    loadLog :: trainAndSave env f net training validation

/-- The function `main`, given the command line and the world. -/
def main {S : Type} (env : Env S) (args : Args) : List (Event S) :=
  let f := parseFlags args
  if f.sampleDir = "" then [Event.die "Missing -samples flag. See -help."]
  else
    match env.load10 f.sampleDir with
    | Except.error e => [Event.die e]
    | Except.ok lists =>
      match splitShards lists with
      | none => [Event.indexPanic]
      | some (training, validation) => mainWithData env f training validation

/-- The kinds of call the claims about `main` speak of. -/
inductive Call where
  | evaluator
  | training
  | saving
  deriving DecidableEq, Repr

/-- The evaluator, training and save calls of a run, in order. -/
def calls {S : Type} : List (Event S) → List Call
  | [] => []
  | Event.evaluate _ _ _ :: es => Call.evaluator :: calls es
  | Event.run _ :: es => Call.training :: calls es
  | Event.save _ _ :: es => Call.saving :: calls es
  | _ :: es => calls es

/-- The networks handed to the evaluator, to the trainer and to the save
call of a run, in order. -/
def netsUsed {S : Type} : List (Event S) → List AnyNet
  | [] => []
  | Event.evaluate net _ _ :: es => net :: netsUsed es
  | Event.run s :: es => s.Fetcher.Net :: s.Gradienter.Net :: netsUsed es
  | Event.save _ net :: es => net :: netsUsed es
  | _ :: es => netsUsed es

/-- The checkpoint writes of a run: path and network. -/
def saves {S : Type} : List (Event S) → List (String × AnyNet)
  | [] => []
  | Event.save path net :: es => (path, net) :: saves es
  | _ :: es => saves es

/-- Whether a run was stopped by `essentials.Die` or by a panic. -/
def died {S : Type} : List (Event S) → Bool
  | [] => false
  | Event.die _ :: _ => true
  | Event.indexPanic :: _ => true
  | _ :: es => died es

/-- The learning rates the Rater of every training call gives at `epoch`. -/
def ratesAt {S : Type} (epoch : ℚ) : List (Event S) → List ℚ
  | [] => []
  | Event.run s :: es => s.Rater epoch :: ratesAt epoch es
  | _ :: es => ratesAt epoch es

/-- The batch sizes a run uses: `(who, size)` in order, for the evaluator
(`0`), the SGD minibatch (`1`) and the validation slice of the status
callback (`2`). -/
def batchSizes {S : Type} : List (Event S) → List (Nat × Int)
  | [] => []
  | Event.evaluate _ _ b :: es => (0, b) :: batchSizes es
  | Event.run s :: es => (1, s.BatchSize) :: (2, s.StatusSliceEnd) :: batchSizes es
  | _ :: es => batchSizes es

/-- A world with six shards of one example each, no checkpoint on disk, in
which every call comes back and the save succeeds. -/
def sixShards : Env Nat :=
  ⟨fun _ => Except.ok [[0], [1], [2], [3], [4], [5]], fun _ => none, true, true,
    fun _ _ => none⟩

/-! ## Binary64 arithmetic of the final log line -/

/-- A finite non-negative binary64 number `mant * 2 ^ exp`: either zero
(`mant = 0`, `exp = 0`) or with a 53-bit significand,
`2 ^ 52 ≤ mant < 2 ^ 53`.  The exponent range is not bounded: the values of
the log line lie far inside it. -/
structure Float64 where
  mant : Nat
  exp : Int
  deriving DecidableEq, Repr

/-- Doubles `p` (lowering the exponent `e`) until `2 ^ 52 ≤ p / q`. -/
def scaleUp : Nat → Nat → Nat → Int → Nat × Int
  | 0, p, _, e => (p, e)
  | fuel + 1, p, q, e =>
    if p < 2 ^ 52 * q then scaleUp fuel (2 * p) q (e - 1) else (p, e)

/-- Doubles `q` (raising the exponent `e`) until `p / q < 2 ^ 53`. -/
def scaleDown : Nat → Nat → Nat → Int → Nat × Int
  | 0, _, q, e => (q, e)
  | fuel + 1, p, q, e =>
    if 2 ^ 53 * q ≤ p then scaleDown fuel p (2 * q) (e + 1) else (q, e)

/-- The binary64 number nearest to the fraction `p / q`, ties to the even
significand (the rounding of every float64 operation). -/
def roundFloat64 (p q : Nat) : Float64 :=
  if p = 0 ∨ q = 0 then ⟨0, 0⟩
  else
    let up := scaleUp 1100 p q 0
    let down := scaleDown 1100 up.1 q up.2
    let m0 := up.1 / down.1
    let rem := up.1 % down.1
    let m := if 2 * rem < down.1 then m0
      else if down.1 < 2 * rem then m0 + 1
      else m0 + m0 % 2
    if m = 2 ^ 53 then ⟨2 ^ 52, down.2 + 1⟩ else ⟨m, down.2⟩

/-- The binary64 number nearest to `(p / q) * 2 ^ e`. -/
def roundScaled (p q : Nat) (e : Int) : Float64 :=
  if 0 ≤ e then roundFloat64 (p * 2 ^ e.toNat) q
  else roundFloat64 p (q * 2 ^ (-e).toNat)

/-- The conversion `float64(n)` of a whole number. -/
def Float64.ofNat (n : Nat) : Float64 := roundFloat64 n 1

/-- The binary64 number nearest to a non-negative rational. -/
def Float64.ofRat (x : ℚ) : Float64 := roundFloat64 x.num.toNat x.den

/-- The float64 product `x * y`: the exact product, rounded. -/
def Float64.mul (x y : Float64) : Float64 :=
  roundScaled (x.mant * y.mant) 1 (x.exp + y.exp)

/-- The float64 quotient `x / y` for `y ≠ 0`: the exact quotient, rounded. -/
def Float64.div (x y : Float64) : Float64 :=
  roundScaled x.mant y.mant (x.exp - y.exp)

/-- The expression `100*correct/total` of source line 134 in float64: the
product `100*correct` is rounded, then the quotient by `total` is rounded;
with `total = 0` the result is no number (`none`). -/
def lineFloat64 (correct total : Float64) : Option Float64 :=
  if total.mant = 0 then none
  else some (Float64.div (Float64.mul (Float64.ofNat 100) correct) total)

/-- The value handed to the final log line (source line 134): the float64
value of `100*correct/total` on the final loop variables. -/
def Report.printed (r : Report) : Option Float64 :=
  lineFloat64 (Float64.ofRat r.correct) (Float64.ofRat r.total)

/-- The specification's formula `matches / totalExamples * 100` in float64:
the quotient is rounded, then the product with `100` is rounded. -/
def specFloat64 (matchesN totalN : Nat) : Option Float64 :=
  if totalN = 0 then none
  else some (Float64.mul (Float64.div (Float64.ofNat matchesN) (Float64.ofNat totalN))
    (Float64.ofNat 100))

/-! ## Vector lemmas -/

theorem dotSum_nil_right (a : Vec) : dotSum a [] = 0 := by
  cases a <;> rfl

theorem dotSum_set (out : Vec) : ∀ (d : Vec) (t : Nat) (x : ℚ),
    out.length = d.length →
    dotSum (out.set t (out.getD t 0 + x)) d = dotSum out d + x * d.getD t 0 := by
  induction out with
  | nil =>
    intro d t x h
    cases d with
    | nil => simp [dotSum]
    | cons y ys => simp at h
  | cons o os ih =>
    intro d t x h
    cases d with
    | nil => simp at h
    | cons y ys =>
      cases t with
      | zero => simp [dotSum]; ring
      | succ t =>
        have h1 : os.length = ys.length := by simpa using h
        simp only [List.getD_cons_succ, List.set_cons_succ, dotSum]
        rw [ih ys t x h1]; ring

theorem dotSum_scatterAdd (table : List Nat) : ∀ (inp out d : Vec),
    out.length = d.length →
    dotSum (scatterAdd table inp out) d
      = dotSum out d + (List.zipWith (fun t x => x * d.getD t 0) table inp).sum := by
  induction table with
  | nil => intro inp out d _; simp [scatterAdd]
  | cons t ts ih =>
    intro inp out d h
    cases inp with
    | nil => simp [scatterAdd]
    | cons x xs =>
      have h1 : (out.set t (out.getD t 0 + x)).length = d.length := by simpa using h
      simp only [scatterAdd, List.zipWith_cons_cons, List.sum_cons]
      rw [ih xs _ d h1, dotSum_set out d t x h]; ring

theorem scatterAdd_length (table : List Nat) : ∀ (inp out : Vec),
    (scatterAdd table inp out).length = out.length := by
  induction table with
  | nil => intro inp out; simp [scatterAdd]
  | cons t ts ih =>
    intro inp out
    cases inp with
    | nil => simp [scatterAdd]
    | cons x xs => simp [scatterAdd, ih]

theorem dotSum_zeros (n : Nat) : ∀ d : Vec, dotSum (MakeVector n) d = 0 := by
  induction n with
  | zero => intro d; simp [MakeVector, dotSum]
  | succ n ih =>
    intro d
    cases d with
    | nil => simp [MakeVector, dotSum]
    | cons y ys =>
      have := ih ys
      simp only [MakeVector] at this
      simp [MakeVector, List.replicate_succ, dotSum, this]

theorem ones_eq (n : Nat) : AddScaler (MakeVector n) 1 = List.replicate n 1 := by
  simp [AddScaler, MakeVector]

theorem zipWith_replicate_one (g : Nat → ℚ → ℚ) (l : List Nat) :
    List.zipWith g l (List.replicate l.length 1) = l.map (fun t => g t 1) := by
  induction l with
  | nil => simp
  | cons t ts ih => simp [List.replicate_succ, ih]

theorem Concat_length (c : Nat) : ∀ rows : List Vec,
    (∀ r ∈ rows, r.length = c) → (Concat rows).length = rows.length * c := by
  intro rows
  induction rows with
  | nil => intro _; simp [Concat]
  | cons r rs ih =>
    intro h
    have hr : r.length = c := h r (by simp)
    have hrs : ∀ q ∈ rs, q.length = c := fun q hq => h q (by simp [hq])
    simp [Concat, ih hrs, hr]; ring

theorem Concat_getD (c : Nat) : ∀ (rows : List Vec) (j a : Nat),
    (∀ r ∈ rows, r.length = c) → a < c →
    (Concat rows).getD (j * c + a) 0 = (rows.getD j []).getD a 0 := by
  intro rows
  induction rows with
  | nil => intro j a _ _; simp [Concat]
  | cons r rs ih =>
    intro j a h ha
    have hr : r.length = c := h r (by simp)
    have hrs : ∀ q ∈ rs, q.length = c := fun q hq => h q (by simp [hq])
    cases j with
    | zero =>
      have hlt : a < r.length := by omega
      simp [Concat, List.getD_eq_getElem?_getD, List.getElem?_append_left hlt]
    | succ j =>
      have hge : r.length ≤ (j + 1) * c + a := by rw [hr]; nlinarith
      have hsub : (j + 1) * c + a - r.length = j * c + a := by
        rw [hr]; have : (j + 1) * c = j * c + c := by ring
        omega
      have := ih j a hrs ha
      simp only [List.getD_eq_getElem?_getD] at this ⊢
      simp only [Concat, List.getElem?_append_right hge, hsub, this]
      simp

theorem oneHot_getD (n c a : Nat) (ha : a < n) :
    (oneHot n c).getD a 0 = if a = c then 1 else 0 := by
  simp [oneHot, List.getD_eq_getElem?_getD, ha]

theorem oneHot_length (n c : Nat) : (oneHot n c).length = n := by
  simp [oneHot]

theorem maxIndexFrom_lt (xs : List ℚ) : ∀ (best : ℚ) (bestIdx i : Nat),
    bestIdx < i → maxIndexFrom best bestIdx i xs < i + xs.length := by
  induction xs with
  | nil => intro best bestIdx i h; simpa [maxIndexFrom] using h
  | cons x xs ih =>
    intro best bestIdx i h
    simp only [maxIndexFrom, List.length_cons]
    split
    · have := ih x i (i + 1) (by omega); omega
    · have := ih best bestIdx (i + 1) (by omega); omega

theorem maxIndex_lt (v : Vec) (hv : 0 < v.length) : maxIndex v < v.length := by
  cases v with
  | nil => simp at hv
  | cons x xs =>
    have := maxIndexFrom_lt xs x 0 1 (by omega)
    simp only [maxIndex, List.length_cons]; omega

theorem maxIndexFrom_max (xs : List ℚ) : ∀ (pre : List ℚ) (best : ℚ) (bestIdx : Nat),
    bestIdx < pre.length → pre.getD bestIdx 0 = best → (∀ y ∈ pre, y ≤ best) →
    ∀ y ∈ pre ++ xs, y ≤ (pre ++ xs).getD (maxIndexFrom best bestIdx pre.length xs) 0 := by
  induction xs with
  | nil =>
    intro pre best bestIdx _ hb hle y hy
    simp only [List.append_nil] at hy ⊢
    simp only [maxIndexFrom, hb]
    exact hle y hy
  | cons x xs ih =>
    intro pre best bestIdx hlt hb hle
    have happ : pre ++ x :: xs = (pre ++ [x]) ++ xs := by simp
    have hlen : (pre ++ [x]).length = pre.length + 1 := by simp
    simp only [maxIndexFrom]
    split
    · rename_i hx
      rw [happ, ← hlen]
      apply ih (pre ++ [x]) x pre.length (by simp)
      · simp [List.getD_eq_getElem?_getD]
      · intro y hy
        rcases List.mem_append.1 hy with h | h
        · exact le_of_lt (lt_of_le_of_lt (hle y h) hx)
        · simp at h; rw [h]
    · rename_i hx
      rw [happ, ← hlen]
      apply ih (pre ++ [x]) best bestIdx (by simp; omega)
      · rw [← hb]
        simp [List.getD_eq_getElem?_getD, List.getElem?_append_left hlt]
      · intro y hy
        rcases List.mem_append.1 hy with h | h
        · exact hle y h
        · simp at h; rw [h]; exact not_lt.1 hx

/-- The index `maxIndex` picks holds a largest entry of the row. -/
theorem maxIndex_max (v : Vec) : ∀ y ∈ v, y ≤ v.getD (maxIndex v) 0 := by
  cases v with
  | nil => intro y hy; simp at hy
  | cons x xs =>
    have h := maxIndexFrom_max xs [x] x 0 (by simp) (by simp) (by simp)
    simpa [maxIndex] using h

/-- Every sum `i + batch` the loop condition computes, at the index
`i = k * b` of pass `k ≤ n / b`, is at most `max b (2 * n)`: below the
64-bit limit for every list that fits in memory. -/
theorem loop_sum_bounded (b n k : Nat) (hk : k ≤ n / b) : k * b + b ≤ max b (2 * n) := by
  have h1 : k * b ≤ n := le_trans (Nat.mul_le_mul_right b hk) (Nat.div_mul_le_self n b)
  rcases Nat.eq_zero_or_pos k with h0 | hpos
  · subst h0; simp
  · have h2 : b ≤ k * b := Nat.le_mul_of_pos_left b hpos
    have : k * b + b ≤ 2 * n := by omega
    exact le_trans this (le_max_right _ _)

theorem row_length (v : Vec) (cols j : Nat) (h : (j + 1) * cols ≤ v.length) :
    (row v cols j).length = cols := by
  have : (j + 1) * cols = j * cols + cols := by ring
  simp only [row, List.length_take, List.length_drop]; omega

theorem sum_indicator (p : Nat → Prop) [DecidablePred p] (l : List Nat) :
    (l.map (fun j => if p j then (1 : ℚ) else 0)).sum
      = ((l.countP (fun j => decide (p j)) : Nat) : ℚ) := by
  induction l with
  | nil => simp
  | cons j js ih =>
    by_cases hj : p j
    · simp [List.countP_cons, hj, ih]; ring
    · simp [List.countP_cons, hj, ih]

theorem labels_shape (sl : List Sample) (hlab : LabelsOK sl) : LabelShapeOK sl := by
  intro s hs
  have h := (hlab s hs).2
  rw [h, oneHot_length]

theorem labels_length (sl : List Sample) (hlab : LabelShapeOK sl) :
    ∀ r ∈ sl.map Sample.Output, r.length = 10 := by
  intro r hr
  obtain ⟨s, hs, rfl⟩ := List.mem_map.1 hr
  exact hlab s hs

theorem label_getD (sl : List Sample) (hlab : LabelsOK sl) (j a : Nat)
    (hj : j < sl.length) (ha : a < 10) :
    ((sl.map Sample.Output).getD j []).getD a 0
      = if a = hotIndex ((sl.map Sample.Output).getD j []) then 1 else 0 := by
  have hj1 : j < (sl.map Sample.Output).length := by simpa using hj
  have hmem : (sl.map Sample.Output).getD j [] ∈ sl.map Sample.Output := by
    rw [List.getD_eq_getElem _ _ hj1]; exact List.getElem_mem _
  obtain ⟨s, hs, hse⟩ := List.mem_map.1 hmem
  have h := (hlab s hs).2
  rw [hse] at h
  generalize (sl.map Sample.Output).getD j [] = v at h ⊢
  conv_lhs => rw [h]
  exact oneHot_getD 10 _ a ha

/-- On a well-shaped batch the three backend calls succeed and the dot
product is the batch score. -/
theorem batch_dot (outs : Vec) (sl : List Sample) (b : Nat)
    (hlen : sl.length = b) (hlab : LabelShapeOK sl) (houts : outs.length = b * 10) :
    ∃ m mx, MapMax outs 10 = some m ∧
      m.MapTranspose (AddScaler (MakeVector b) 1)
        (MakeVector (Fetch sl).Outputs.length) = some mx ∧
      Dot mx (Fetch sl).Outputs = some (batchScore outs sl) := by
  have hdes : (Fetch sl).Outputs.length = b * 10 := by
    simp only [Fetch]
    rw [Concat_length 10 _ (labels_length sl hlab)]; simp [hlen]
  have hdiv : outs.length / 10 = b := by omega
  have hmod : ¬ ((10 : Nat) = 0 ∨ outs.length % 10 ≠ 0) := by omega
  refine ⟨⟨(List.range b).map (fun j => j * 10 + maxIndex (row outs 10 j)), outs.length⟩,
    scatterAdd ((List.range b).map (fun j => j * 10 + maxIndex (row outs 10 j)))
      (AddScaler (MakeVector b) 1) (MakeVector (Fetch sl).Outputs.length), ?_, ?_, ?_⟩
  · simp only [MapMax, if_neg hmod, hdiv]
  · have h1 : (AddScaler (MakeVector b) 1).length = b := by simp [ones_eq]
    have h2 : (MakeVector (Fetch sl).Outputs.length).length = outs.length := by
      simp [MakeVector, hdes, houts]
    simp [Mapper.MapTranspose, h1, h2]
  · have hl : (scatterAdd ((List.range b).map (fun j => j * 10 + maxIndex (row outs 10 j)))
        (AddScaler (MakeVector b) 1) (MakeVector (Fetch sl).Outputs.length)).length
        = (Fetch sl).Outputs.length := by
      rw [scatterAdd_length]; simp [MakeVector]
    simp only [Dot, if_pos hl]
    congr 1
    rw [dotSum_scatterAdd _ _ _ _ (by simp [MakeVector]), dotSum_zeros, zero_add, ones_eq]
    have hz := zipWith_replicate_one (fun t x => x * (Fetch sl).Outputs.getD t 0)
      ((List.range b).map (fun j => j * 10 + maxIndex (row outs 10 j)))
    simp only [List.length_map, List.length_range] at hz
    rw [hz, List.map_map, batchScore, hlen]
    congr 1
    apply List.map_congr_left
    intro j _
    simp only [Function.comp, one_mul]

/-- With one-hot labels the batch score counts the rows classified
correctly: a matching row adds `1`, any other row adds `0`. -/
theorem batchScore_eq_matches (outs : Vec) (sl : List Sample)
    (hlab : LabelsOK sl) (houts : outs.length = sl.length * 10) :
    batchScore outs sl = ((rowMatches outs sl : Nat) : ℚ) := by
  rw [batchScore, rowMatches, ← sum_indicator]
  congr 1
  apply List.map_congr_left
  intro j hj
  have hjb : j < sl.length := List.mem_range.1 hj
  have hrow : (row outs 10 j).length = 10 := row_length outs 10 j (by rw [houts]; nlinarith)
  have ha : maxIndex (row outs 10 j) < 10 := by
    have := maxIndex_lt (row outs 10 j) (by omega); omega
  simp only [Fetch]
  rw [Concat_getD 10 _ j _ (labels_length sl (labels_shape sl hlab)) ha,
    label_getD sl hlab j _ hjb ha]
  rfl

/-! ## The loop of printSuccessRate -/

theorem batchAt_length (samples : List Sample) (b i : Nat) (hi : i + b ≤ samples.length) :
    (batchAt samples b i).length = b := by
  simp only [batchAt, List.length_take, List.length_drop]; omega

theorem batchAt_labelShape (samples : List Sample) (b i : Nat)
    (hlab : LabelShapeOK samples) : LabelShapeOK (batchAt samples b i) := by
  intro s hs
  exact hlab s (List.mem_of_mem_drop (List.mem_of_mem_take hs))

theorem batchAt_labels (samples : List Sample) (b i : Nat) (hlab : LabelsOK samples) :
    LabelsOK (batchAt samples b i) := by
  intro s hs
  exact hlab s (List.mem_of_mem_drop (List.mem_of_mem_take hs))

theorem batchStep_ok (net : Net) (samples : List Sample) (b i : Nat) (st : EvalState)
    (hi : i + b ≤ samples.length) (hlab : LabelShapeOK samples)
    (hshape : (batchOuts net samples b i).map List.length = some (b * 10)) :
    batchStep net samples b (AddScaler (MakeVector b) 1) i st
      = some ⟨st.correct + scoreAt net samples b i, st.total + (b : ℚ),
          st.slices ++ [(i, i + b)]⟩ := by
  have hsl : Slice samples i (i + b) = some (batchAt samples b i) := by
    simp [Slice, batchAt, hi]
  cases hnet : batchOuts net samples b i with
  | none => simp [hnet] at hshape
  | some outs =>
    have houts : outs.length = b * 10 := by simpa [hnet] using hshape
    obtain ⟨m, mx, h1, h2, h3⟩ := batch_dot outs (batchAt samples b i) b
      (batchAt_length samples b i hi) (batchAt_labelShape samples b i hlab) houts
    have hnet1 : net (Fetch (batchAt samples b i)).Inputs b = some outs := hnet
    simp only [batchStep, hsl, hnet1, h1, h2, h3, scoreAt, hnet]

/-- Start indices `i, i+b, ...` of `m` consecutive batches. -/
theorem starts_succ (b i m : Nat) :
    (List.range (m + 1)).map (fun k => i + k * b)
      = i :: (List.range m).map (fun k => (i + b) + k * b) := by
  rw [List.range_succ_eq_map, List.map_cons, List.map_map]
  simp only [Nat.zero_mul, Nat.add_zero, List.cons.injEq, true_and]
  apply List.map_congr_left
  intro k _
  simp only [Function.comp, Nat.succ_eq_add_one]; ring

theorem batchLoop_ok (net : Net) (samples : List Sample) (b : Nat) (hb : 1 ≤ b)
    (hlab : LabelShapeOK samples) :
    ∀ (m fuel i : Nat) (st : EvalState), (samples.length - i) / b = m → m < fuel →
      (∀ s ∈ (List.range m).map (fun k => i + k * b),
        (batchOuts net samples b s).map List.length = some (b * 10)) →
      batchLoop net samples b (AddScaler (MakeVector b) 1) fuel i st
        = Outcome.done ⟨st.correct
            + (((List.range m).map (fun k => i + k * b)).map
                (scoreAt net samples b)).sum,
          st.total + (b : ℚ) * (m : ℚ),
          st.slices ++ ((List.range m).map (fun k => i + k * b)).map (fun s => (s, s + b))⟩ := by
  intro m
  induction m with
  | zero =>
    intro fuel i st hm hf _
    obtain ⟨fuel, rfl⟩ : ∃ f, fuel = f + 1 := ⟨fuel - 1, by omega⟩
    have hlt : (samples.length - i) < b := (Nat.div_eq_zero_iff (by omega)).1 hm
    have hcond : ¬ (i + b ≤ samples.length) := by omega
    simp [batchLoop, hcond]
  | succ m ih =>
    intro fuel i st hm hf hshape
    obtain ⟨fuel, rfl⟩ : ∃ f, fuel = f + 1 := ⟨fuel - 1, by omega⟩
    have hge : b ≤ samples.length - i := by
      by_contra hcon
      have : (samples.length - i) / b = 0 := Nat.div_eq_of_lt (by omega)
      omega
    have hcond : i + b ≤ samples.length := by omega
    have hm1 : (samples.length - (i + b)) / b = m := by
      have h1 : samples.length - i = (samples.length - (i + b)) + b := by omega
      rw [h1, Nat.add_div_right _ (by omega)] at hm
      omega
    rw [starts_succ] at hshape ⊢
    have hs0 := hshape i (by simp)
    have hrest : ∀ s ∈ (List.range m).map (fun k => (i + b) + k * b),
        (batchOuts net samples b s).map List.length = some (b * 10) :=
      fun s hs => hshape s (List.mem_cons_of_mem _ hs)
    simp only [batchLoop, if_pos hcond, batchStep_ok net samples b i st hcond hlab hs0]
    rw [ih fuel (i + b) _ hm1 (by omega) hrest]
    simp only [List.map_cons, List.sum_cons, List.append_assoc, List.singleton_append,
      Outcome.done.injEq, EvalState.mk.injEq, and_true]
    constructor
    · ring
    · push_cast; ring

theorem scoreAt_eq_matchesAt (net : Net) (samples : List Sample) (b i : Nat)
    (hi : i + b ≤ samples.length) (hlab : LabelsOK samples)
    (hshape : (batchOuts net samples b i).map List.length = some (b * 10)) :
    scoreAt net samples b i = ((matchesAt net samples b i : Nat) : ℚ) := by
  cases hnet : batchOuts net samples b i with
  | none => simp [hnet] at hshape
  | some outs =>
    have houts : outs.length = b * 10 := by simpa [hnet] using hshape
    simp only [scoreAt, matchesAt, hnet]
    apply batchScore_eq_matches _ _ (batchAt_labels samples b i hlab)
    rw [batchAt_length samples b i hi, houts]

theorem batchStep_log (net : Net) (samples : List Sample) (b : Nat) (ones : Vec)
    (i : Nat) (st st1 : EvalState) (h : batchStep net samples b ones i st = some st1) :
    st1.slices = st.slices ++ [(i, i + b)] ∧ st1.total = st.total + (b : ℚ) := by
  unfold batchStep at h
  cases h1 : Slice samples i (i + b) with
  | none => simp [h1] at h
  | some sl =>
    cases h2 : net (Fetch sl).Inputs b with
    | none => simp [h1, h2] at h
    | some outs =>
      cases h3 : MapMax outs 10 with
      | none => simp [h1, h2, h3] at h
      | some mapper =>
        cases h4 : mapper.MapTranspose ones (MakeVector (Fetch sl).Outputs.length) with
        | none => simp [h1, h2, h3, h4] at h
        | some maxes1 =>
          cases h5 : Dot maxes1 (Fetch sl).Outputs with
          | none => simp [h1, h2, h3, h4, h5] at h
          | some d =>
            simp only [h1, h2, h3, h4, h5, Option.some.injEq] at h
            subst h
            exact ⟨rfl, rfl⟩

/-- Whatever the network does, with `b ≥ 1` and fuel above the number of
full batches the loop stops: it panics, or it finishes having logged
exactly the consecutive ranges of width `b`. -/
theorem batchLoop_total (net : Net) (samples : List Sample) (b : Nat) (ones : Vec)
    (hb : 1 ≤ b) :
    ∀ (m fuel i : Nat) (st : EvalState), (samples.length - i) / b = m → m < fuel →
      batchLoop net samples b ones fuel i st = Outcome.panic ∨
      ∃ st1, batchLoop net samples b ones fuel i st = Outcome.done st1 ∧
        st1.slices = st.slices
          ++ ((List.range m).map (fun k => i + k * b)).map (fun s => (s, s + b)) ∧
        st1.total = st.total + (b : ℚ) * (m : ℚ) := by
  intro m
  induction m with
  | zero =>
    intro fuel i st hm hf
    obtain ⟨fuel, rfl⟩ : ∃ f, fuel = f + 1 := ⟨fuel - 1, by omega⟩
    have hlt : (samples.length - i) < b := (Nat.div_eq_zero_iff (by omega)).1 hm
    have hcond : ¬ (i + b ≤ samples.length) := by omega
    right
    exact ⟨st, by simp [batchLoop, hcond], by simp, by simp⟩
  | succ m ih =>
    intro fuel i st hm hf
    obtain ⟨fuel, rfl⟩ : ∃ f, fuel = f + 1 := ⟨fuel - 1, by omega⟩
    have hge : b ≤ samples.length - i := by
      by_contra hcon
      have : (samples.length - i) / b = 0 := Nat.div_eq_of_lt (by omega)
      omega
    have hcond : i + b ≤ samples.length := by omega
    have hm1 : (samples.length - (i + b)) / b = m := by
      have h1 : samples.length - i = (samples.length - (i + b)) + b := by omega
      rw [h1, Nat.add_div_right _ (by omega)] at hm
      omega
    cases hstep : batchStep net samples b ones i st with
    | none => left; simp [batchLoop, hcond, hstep]
    | some st1 =>
      obtain ⟨hsl, htot⟩ := batchStep_log net samples b ones i st st1 hstep
      rcases ih fuel (i + b) st1 hm1 (by omega) with hp | ⟨st2, hd, hs2, ht2⟩
      · left; simp [batchLoop, hcond, hstep, hp]
      · right
        refine ⟨st2, by simp [batchLoop, hcond, hstep, hd], ?_, ?_⟩
        · rw [hs2, hsl, starts_succ]; simp
        · rw [ht2, htot]; push_cast; ring

/-- With too little fuel the loop of a well-shaped run is still running. -/
theorem batchLoop_short (net : Net) (samples : List Sample) (b : Nat) (hb : 1 ≤ b)
    (hlab : LabelShapeOK samples) :
    ∀ (fuel i : Nat) (st : EvalState), fuel ≤ (samples.length - i) / b →
      (∀ s ∈ (List.range fuel).map (fun k => i + k * b),
        (batchOuts net samples b s).map List.length = some (b * 10)) →
      batchLoop net samples b (AddScaler (MakeVector b) 1) fuel i st = Outcome.outOfFuel := by
  intro fuel
  induction fuel with
  | zero => intro i st _ _; rfl
  | succ fuel ih =>
    intro i st hf hshape
    have hge : b ≤ samples.length - i := by
      by_contra hcon
      have : (samples.length - i) / b = 0 := Nat.div_eq_of_lt (by omega)
      omega
    have hcond : i + b ≤ samples.length := by omega
    have hm1 : fuel ≤ (samples.length - (i + b)) / b := by
      have h1 : samples.length - i = (samples.length - (i + b)) + b := by omega
      rw [h1, Nat.add_div_right _ (by omega)] at hf
      omega
    rw [starts_succ] at hshape
    have hs0 := hshape i (by simp)
    have hrest : ∀ s ∈ (List.range fuel).map (fun k => (i + b) + k * b),
        (batchOuts net samples b s).map List.length = some (b * 10) :=
      fun s hs => hshape s (List.mem_cons_of_mem _ hs)
    simp only [batchLoop, if_pos hcond, batchStep_ok net samples b i st hcond hlab hs0]
    exact ih (i + b) _ hm1 hrest

/-- With batch size `0` the loop condition holds forever: the loop never
finishes, whatever the fuel. -/
theorem batchLoop_zero (net : Net) (samples : List Sample) (ones : Vec) :
    ∀ (fuel i : Nat) (st st1 : EvalState), i ≤ samples.length →
      batchLoop net samples 0 ones fuel i st ≠ Outcome.done st1 := by
  intro fuel
  induction fuel with
  | zero => intro i st st1 _ h; cases h
  | succ fuel ih =>
    intro i st st1 hi h
    have hcond : i + 0 ≤ samples.length := by omega
    simp only [batchLoop, if_pos hcond] at h
    cases hstep : batchStep net samples 0 ones i st with
    | none => simp [hstep] at h
    | some st2 =>
      simp only [hstep] at h
      exact ih (i + 0) st2 st1 hcond h

theorem batchStarts_eq (b n : Nat) :
    (List.range (n / b)).map (fun k => 0 + k * b) = batchStarts b n := by
  simp [batchStarts]

/-- A well-shaped run with enough fuel finishes, with these values. -/
theorem run_ok (net : Net) (samples : List Sample) (b fuel : Nat) (hb : 1 ≤ b)
    (hlab : LabelShapeOK samples) (hshape : ShapeOK net samples b)
    (hf : samples.length / b < fuel) :
    printSuccessRate fuel net samples b = Outcome.done
      ⟨((batchStarts b samples.length).map (scoreAt net samples b)).sum,
        (b : ℚ) * ((samples.length / b : Nat) : ℚ),
        (batchStarts b samples.length).map (fun s => (s, s + b)),
        percent ((batchStarts b samples.length).map (scoreAt net samples b)).sum
          ((b : ℚ) * ((samples.length / b : Nat) : ℚ))⟩ := by
  have h := batchLoop_ok net samples b hb hlab (samples.length / b) fuel 0 ⟨0, 0, []⟩
    (by simp) hf (by rw [batchStarts_eq]; exact hshape)
  rw [batchStarts_eq] at h
  simp only [printSuccessRate, h, zero_add, List.nil_append]

/-! ## Ranges, counts and the reported value -/

theorem starts_bound (b n i : Nat) (hi : i ∈ batchStarts b n) : i + b ≤ n := by
  obtain ⟨k, hk, rfl⟩ := List.mem_map.1 hi
  have hk1 : k + 1 ≤ n / b := List.mem_range.1 hk
  calc k * b + b = (k + 1) * b := by ring
    _ ≤ (n / b) * b := Nat.mul_le_mul_right b hk1
    _ ≤ n := Nat.div_mul_le_self n b

theorem slices_eq_fullRanges (b n : Nat) :
    (batchStarts b n).map (fun s => (s, s + b)) = fullRanges b n := by
  simp [batchStarts, fullRanges, List.map_map, Function.comp]

theorem fullRanges_length (b n : Nat) : (fullRanges b n).length = n / b := by
  simp [fullRanges]

theorem fullRanges_width (samples : List Sample) (b : Nat) :
    ∀ p ∈ fullRanges b samples.length, p.2 = p.1 + b ∧ p.2 ≤ samples.length ∧
      (Slice samples p.1 p.2).map List.length = some b := by
  intro p hp
  obtain ⟨k, hk, rfl⟩ := List.mem_map.1 hp
  have hi : k * b + b ≤ samples.length :=
    starts_bound b samples.length (k * b) (List.mem_map.2 ⟨k, hk, rfl⟩)
  refine ⟨rfl, hi, ?_⟩
  simp only [Slice]
  rw [if_pos ⟨by omega, hi⟩]
  simp only [Option.map_some', List.length_take, List.length_drop, Option.some.injEq]
  omega

theorem fullRanges_pairwise (b n : Nat) :
    List.Pairwise (fun p q : Nat × Nat => p.2 ≤ q.1) (fullRanges b n) := by
  rw [fullRanges, List.pairwise_map]
  refine List.Pairwise.imp ?_ (List.pairwise_lt_range (n / b))
  intro k l hkl
  show k * b + b ≤ l * b
  calc k * b + b = (k + 1) * b := by ring
    _ ≤ l * b := Nat.mul_le_mul_right b hkl

theorem fullRanges_cover (b n x : Nat) (hb : 1 ≤ b) :
    (∃ p ∈ fullRanges b n, p.1 ≤ x ∧ x < p.2) ↔ x < b * (n / b) := by
  constructor
  · rintro ⟨p, hp, -, h2⟩
    obtain ⟨k, hk, rfl⟩ := List.mem_map.1 hp
    have hk1 : k + 1 ≤ n / b := List.mem_range.1 hk
    calc x < k * b + b := h2
      _ = b * (k + 1) := by ring
      _ ≤ b * (n / b) := Nat.mul_le_mul_left b hk1
  · intro hx
    have hq : x / b < n / b := (Nat.div_lt_iff_lt_mul (by omega)).2 (by rw [Nat.mul_comm]; exact hx)
    refine ⟨(x / b * b, x / b * b + b), List.mem_map.2 ⟨x / b, List.mem_range.2 hq, rfl⟩, ?_, ?_⟩
    · exact Nat.div_mul_le_self x b
    · have h1 := Nat.div_add_mod x b
      have h2 := Nat.mod_lt x (show 0 < b by omega)
      have h3 : x / b * b = b * (x / b) := Nat.mul_comm _ _
      simp only
      omega

theorem percent_full (t : ℚ) (ht : t ≠ 0) : percent t t = some 100 := by
  simp only [percent, if_neg ht, Option.some.injEq]
  field_simp

theorem percent_none (t : ℚ) (ht : t ≠ 0) : percent 0 t = some 0 := by
  simp [percent, ht]

/-- As exact numbers, before rounding, the two formulas agree. -/
theorem percent_eq_specPercent (m t : Nat) :
    percent (m : ℚ) (t : ℚ) = specPercent m t := by
  by_cases ht : t = 0
  · simp [percent, specPercent, ht]
  · have ht1 : (t : ℚ) ≠ 0 := by exact_mod_cast ht
    simp only [percent, specPercent, if_neg ht, if_neg ht1, Option.some.injEq]
    field_simp
    ring

theorem total_cast (samples : List Sample) (b : Nat) :
    (b : ℚ) * ((samples.length / b : Nat) : ℚ) = ((totalExamples samples b : Nat) : ℚ) := by
  simp [totalExamples]

theorem total_ne_zero (samples : List Sample) (b : Nat) (hb : 1 ≤ b)
    (hn : b ≤ samples.length) : (b : ℚ) * ((samples.length / b : Nat) : ℚ) ≠ 0 := by
  have h1 : 0 < samples.length / b := Nat.div_pos hn (by omega)
  have h2 : (0 : ℚ) < (b : ℚ) := by exact_mod_cast (show 0 < b by omega)
  have h3 : (0 : ℚ) < ((samples.length / b : Nat) : ℚ) := by exact_mod_cast h1
  positivity

theorem scores_eq_matchCount (net : Net) (samples : List Sample) (b : Nat)
    (hlab : LabelsOK samples) (hshape : ShapeOK net samples b) :
    ((batchStarts b samples.length).map (scoreAt net samples b)).sum
      = ((matchCount net samples b : Nat) : ℚ) := by
  have h : (batchStarts b samples.length).map (scoreAt net samples b)
      = (batchStarts b samples.length).map
          (fun i => ((matchesAt net samples b i : Nat) : ℚ)) := by
    apply List.map_congr_left
    intro i hi
    exact scoreAt_eq_matchesAt net samples b i (starts_bound b _ i hi) hlab (hshape i hi)
  rw [h, matchCount]
  generalize batchStarts b samples.length = l
  induction l with
  | nil => simp
  | cons i is ih => simp [ih]

theorem matchesAt_allCorrect (net : Net) (samples : List Sample) (b i : Nat)
    (hi : i ∈ batchStarts b samples.length) (hall : AllCorrect net samples b)
    (hshape : ShapeOK net samples b) : matchesAt net samples b i = b := by
  have hlen := batchAt_length samples b i (starts_bound b _ i hi)
  cases hnet : batchOuts net samples b i with
  | none => have := hshape i hi; simp [hnet] at this
  | some outs =>
    simp only [matchesAt, hnet, rowMatches]
    rw [hlen]
    have hc : List.countP (fun j => decide (rowCorrect outs (batchAt samples b i) j))
        (List.range b) = (List.range b).length := by
      rw [List.countP_eq_length]
      intro j hj
      have := hall i hi j hj
      simp only [predicted, hnet, Option.map_some', Option.some.injEq, trueClass] at this
      simpa [rowCorrect] using this
    simpa using hc

theorem matchesAt_allWrong (net : Net) (samples : List Sample) (b i : Nat)
    (hi : i ∈ batchStarts b samples.length) (hall : AllWrong net samples b) :
    matchesAt net samples b i = 0 := by
  have hlen := batchAt_length samples b i (starts_bound b _ i hi)
  cases hnet : batchOuts net samples b i with
  | none => simp [matchesAt, hnet]
  | some outs =>
    simp only [matchesAt, hnet, rowMatches]
    rw [hlen, List.countP_eq_zero]
    intro j hj
    have := hall i hi j hj
    simp only [predicted, hnet, Option.map_some', ne_eq, Option.some.injEq, trueClass] at this
    simpa [rowCorrect] using this

theorem matchCount_allCorrect (net : Net) (samples : List Sample) (b : Nat)
    (hall : AllCorrect net samples b) (hshape : ShapeOK net samples b) :
    matchCount net samples b = totalExamples samples b := by
  have h : (batchStarts b samples.length).map (matchesAt net samples b)
      = (batchStarts b samples.length).map (fun _ => b) := by
    apply List.map_congr_left
    intro i hi
    exact matchesAt_allCorrect net samples b i hi hall hshape
  rw [matchCount, h, totalExamples, List.map_const', List.sum_replicate]
  simp [batchStarts, Nat.mul_comm]

theorem matchCount_allWrong (net : Net) (samples : List Sample) (b : Nat)
    (hall : AllWrong net samples b) : matchCount net samples b = 0 := by
  have h : (batchStarts b samples.length).map (matchesAt net samples b)
      = (batchStarts b samples.length).map (fun _ => 0) := by
    apply List.map_congr_left
    intro i hi
    exact matchesAt_allWrong net samples b i hi hall
  rw [matchCount, h]
  simp

theorem printSuccessRate_total (net : Net) (samples : List Sample) (b fuel : Nat)
    (hb : 1 ≤ b) (hf : samples.length / b < fuel) :
    printSuccessRate fuel net samples b = Outcome.panic ∨
    ∃ r, printSuccessRate fuel net samples b = Outcome.done r ∧
      r.slices = fullRanges b samples.length ∧
      r.total = ((b * (samples.length / b) : Nat) : ℚ) := by
  rcases batchLoop_total net samples b (AddScaler (MakeVector b) 1) hb
      (samples.length / b) fuel 0 ⟨0, 0, []⟩ (by simp) hf with hp | ⟨st, hd, hs, ht⟩
  · left; simp only [printSuccessRate, hp]
  · right
    refine ⟨⟨st.correct, st.total, st.slices, percent st.correct st.total⟩, ?_, ?_, ?_⟩
    · simp only [printSuccessRate, hd]
    · rw [batchStarts_eq, slices_eq_fullRanges] at hs
      simpa using hs
    · simp only [ht]; push_cast; ring

theorem batchStep_zero (net : Net) (samples : List Sample) (i : Nat) (st : EvalState)
    (hi : i ≤ samples.length) (hnet : net [] 0 = some []) :
    batchStep net samples 0 (AddScaler (MakeVector 0) 1) i st
      = some ⟨st.correct + 0, st.total + ((0 : Nat) : ℚ), st.slices ++ [(i, i + 0)]⟩ := by
  have hsl : Slice samples i (i + 0) = some [] := by simp [Slice, hi]
  have hf : Fetch [] = ⟨[], []⟩ := rfl
  have h3 : MapMax [] 10 = some ⟨[], 0⟩ := rfl
  have h4 : Mapper.MapTranspose ⟨[], 0⟩ (AddScaler (MakeVector 0) 1) (MakeVector 0) = some [] :=
    rfl
  have h5 : Dot [] [] = some 0 := by decide
  simp only [batchStep, hsl, hf, hnet, h3, List.length_nil, h4, h5]

theorem batchLoop_zero_idle (net : Net) (samples : List Sample) (hnet : net [] 0 = some []) :
    ∀ (fuel i : Nat) (st : EvalState), i ≤ samples.length →
      batchLoop net samples 0 (AddScaler (MakeVector 0) 1) fuel i st = Outcome.outOfFuel := by
  intro fuel
  induction fuel with
  | zero => intro i st _; rfl
  | succ fuel ih =>
    intro i st hi
    have hcond : i + 0 ≤ samples.length := by omega
    simp only [batchLoop, if_pos hcond, batchStep_zero net samples i st hi hnet]
    exact ih (i + 0) _ hcond

/-! ## The claims about printSuccessRate -/

/-- C1 (as stated, refuted): a validation list of one example, classified
correctly, evaluated with batch size 2 has no full batch; the run finishes
with `correct = total = 0` and reports `NaN`, not 100.  Likewise a list of
one misclassified example reports `NaN`, not 0. -/
theorem printSuccessRate_short_list_reports_nan :
    (idNet (mkSample 3 3).Input 1).map maxIndex = some (hotIndex (mkSample 3 3).Output) ∧
    printSuccessRate 1 idNet [mkSample 3 3] 2 = Outcome.done ⟨0, 0, [], none⟩ ∧
    (idNet (mkSample 4 3).Input 1).map maxIndex ≠ some (hotIndex (mkSample 4 3).Output) ∧
    printSuccessRate 1 idNet [mkSample 4 3] 2 = Outcome.done ⟨0, 0, [], none⟩ := by
  refine ⟨by decide, rfl, by decide, rfl⟩

/-- C1 (amended): for a network that returns 10 values per example, a
validation list with one-hot labels and a batch size `b` with
`1 ≤ b ≤ n` (at least one full batch), `printSuccessRate` reports exactly
100 when the arg-max class is the true class on every evaluated example,
and exactly 0 when it differs on every evaluated example. -/
theorem printSuccessRate_all_or_nothing (net : Net) (samples : List Sample) (b fuel : Nat)
    (hb : 1 ≤ b) (hn : b ≤ samples.length) (hlab : LabelsOK samples)
    (hshape : ShapeOK net samples b) (hf : samples.length / b < fuel) :
    (AllCorrect net samples b →
      ∃ r, printSuccessRate fuel net samples b = Outcome.done r ∧ r.reported = some 100) ∧
    (AllWrong net samples b →
      ∃ r, printSuccessRate fuel net samples b = Outcome.done r ∧ r.reported = some 0) := by
  have hrun := run_ok net samples b fuel hb (labels_shape samples hlab) hshape hf
  have hsum := scores_eq_matchCount net samples b hlab hshape
  have hne := total_ne_zero samples b hb hn
  constructor
  · intro hall
    refine ⟨_, hrun, ?_⟩
    simp only [hsum, matchCount_allCorrect net samples b hall hshape]
    rw [← total_cast]
    exact percent_full _ hne
  · intro hall
    refine ⟨_, hrun, ?_⟩
    simp only [hsum, matchCount_allWrong net samples b hall]
    exact percent_none _ hne

/-- Witness of C1 (amended): two correctly classified examples, batch size 1. -/
theorem printSuccessRate_all_or_nothing_witness :
    1 ≤ 1 ∧ 1 ≤ [mkSample 3 3, mkSample 7 7].length ∧
    LabelsOK [mkSample 3 3, mkSample 7 7] ∧
    ShapeOK idNet [mkSample 3 3, mkSample 7 7] 1 ∧
    [mkSample 3 3, mkSample 7 7].length / 1 < 3 ∧
    AllCorrect idNet [mkSample 3 3, mkSample 7 7] 1 ∧
    ∃ r, printSuccessRate 3 idNet [mkSample 3 3, mkSample 7 7] 1 = Outcome.done r ∧
      r.reported = some 100 :=
  ⟨by decide, by decide, by decide, by decide, by decide, by decide,
    (printSuccessRate_all_or_nothing idNet [mkSample 3 3, mkSample 7 7] 1 3
      (by decide) (by decide) (by decide) (by decide) (by decide)).1 (by decide)⟩

/-- C2: for every validation list of length `n` and batch size `b ≥ 1`, a
run that is not cut short by a panic of the backend logs exactly the
`n / b` ranges `[0,b), [b,2b), ...` in this order and ends with
`total = b * (n / b)`; with 10 values per example from the network and per
label there is no such panic.  Each range holds exactly `b` examples of the
list, the ranges do not overlap, and the indices they cover are exactly
those below `b * (n / b)`, so the last `n % b` examples are left out. -/
theorem printSuccessRate_full_batches (net : Net) (samples : List Sample) (b fuel : Nat)
    (hb : 1 ≤ b) (hf : samples.length / b < fuel) :
    (printSuccessRate fuel net samples b = Outcome.panic ∨
      ∃ r, printSuccessRate fuel net samples b = Outcome.done r ∧
        r.slices = fullRanges b samples.length ∧
        r.total = ((b * (samples.length / b) : Nat) : ℚ)) ∧
    (LabelShapeOK samples → ShapeOK net samples b →
      ∃ r, printSuccessRate fuel net samples b = Outcome.done r ∧
        r.slices = fullRanges b samples.length ∧
        r.total = ((b * (samples.length / b) : Nat) : ℚ)) ∧
    (fullRanges b samples.length).length = samples.length / b ∧
    (∀ p ∈ fullRanges b samples.length, p.2 = p.1 + b ∧ p.2 ≤ samples.length ∧
      (Slice samples p.1 p.2).map List.length = some b) ∧
    List.Pairwise (fun p q : Nat × Nat => p.2 ≤ q.1) (fullRanges b samples.length) ∧
    (∀ x, (∃ p ∈ fullRanges b samples.length, p.1 ≤ x ∧ x < p.2)
      ↔ x < b * (samples.length / b)) ∧
    samples.length - b * (samples.length / b) = samples.length % b := by
  refine ⟨printSuccessRate_total net samples b fuel hb hf, ?_, fullRanges_length _ _,
    fullRanges_width samples b, fullRanges_pairwise _ _,
    fun x => fullRanges_cover b _ x hb, ?_⟩
  · intro hlab hshape
    refine ⟨_, run_ok net samples b fuel hb hlab hshape hf, ?_, ?_⟩
    · exact slices_eq_fullRanges b samples.length
    · simp only; push_cast; ring
  · have := Nat.div_add_mod samples.length b
    omega

/-- Witness of C2: three examples, batch size 2: one range, one example left out. -/
theorem printSuccessRate_full_batches_witness :
    1 ≤ 2 ∧ [mkSample 3 3, mkSample 7 7, mkSample 1 2].length / 2 < 2 ∧
    ∃ r, printSuccessRate 2 idNet [mkSample 3 3, mkSample 7 7, mkSample 1 2] 2
        = Outcome.done r ∧
      r.slices = fullRanges 2 [mkSample 3 3, mkSample 7 7, mkSample 1 2].length ∧
      r.total = ((2 * ([mkSample 3 3, mkSample 7 7, mkSample 1 2].length / 2) : Nat) : ℚ) :=
  ⟨by decide, by decide,
    (printSuccessRate_full_batches idNet [mkSample 3 3, mkSample 7 7, mkSample 1 2] 2 2
      (by decide) (by decide)).2.1 (by decide) (by decide)⟩

theorem ofRat_natCast (n : Nat) : Float64.ofRat (n : ℚ) = Float64.ofNat n := by
  simp [Float64.ofRat, Float64.ofNat]

/-- A well-shaped run with one-hot labels finishes with the two counts in
its loop variables and hands their float64 quotient to the log line. -/
theorem run_counts (net : Net) (samples : List Sample) (b fuel : Nat) (hb : 1 ≤ b)
    (hlab : LabelsOK samples) (hshape : ShapeOK net samples b)
    (hf : samples.length / b < fuel) :
    ∃ r, printSuccessRate fuel net samples b = Outcome.done r ∧
      r.correct = ((matchCount net samples b : Nat) : ℚ) ∧
      r.total = ((totalExamples samples b : Nat) : ℚ) ∧
      r.printed = lineFloat64 (Float64.ofNat (matchCount net samples b))
        (Float64.ofNat (totalExamples samples b)) := by
  have hrun := run_ok net samples b fuel hb (labels_shape samples hlab) hshape hf
  have hsum := scores_eq_matchCount net samples b hlab hshape
  refine ⟨_, hrun, hsum, total_cast samples b, ?_⟩
  simp only [Report.printed, hsum, total_cast, ofRat_natCast]

/-- C3 (as stated, refuted): one right and two wrong examples in one batch
of size 3 give `correct = 1` and `total = 3`; the value handed to the log
line, `100*correct/total` in float64, is `4691249611844267 * 2^-47`
(33.333333333333336), while `matches / totalExamples * 100` in float64 is
`4691249611844266 * 2^-47` (33.33333333333333). -/
theorem printSuccessRate_float_order_differs :
    LabelsOK [mkSample 3 3, mkSample 1 2, mkSample 1 2] ∧
    ShapeOK idNet [mkSample 3 3, mkSample 1 2, mkSample 1 2] 3 ∧
    matchCount idNet [mkSample 3 3, mkSample 1 2, mkSample 1 2] 3 = 1 ∧
    totalExamples [mkSample 3 3, mkSample 1 2, mkSample 1 2] 3 = 3 ∧
    (∃ r, printSuccessRate 2 idNet [mkSample 3 3, mkSample 1 2, mkSample 1 2] 3
        = Outcome.done r ∧
      r.correct = 1 ∧ r.total = 3 ∧
      r.printed = some ⟨4691249611844267, -47⟩) ∧
    specFloat64 1 3 = some ⟨4691249611844266, -47⟩ ∧
    (some ⟨4691249611844267, -47⟩ : Option Float64) ≠ some ⟨4691249611844266, -47⟩ := by
  have hm : matchCount idNet [mkSample 3 3, mkSample 1 2, mkSample 1 2] 3 = 1 := by decide
  have ht : totalExamples [mkSample 3 3, mkSample 1 2, mkSample 1 2] 3 = 3 := by decide
  have hline : lineFloat64 (Float64.ofNat 1) (Float64.ofNat 3)
      = some ⟨4691249611844267, -47⟩ := by decide
  obtain ⟨r, hr, hc, htot, hp⟩ := run_counts idNet
    [mkSample 3 3, mkSample 1 2, mkSample 1 2] 3 2 (by decide) (by decide) (by decide)
    (by decide)
  rw [hm] at hc hp
  rw [ht] at htot hp
  refine ⟨by decide, by decide, hm, ht, ⟨r, hr, ?_, ?_, ?_⟩, by decide, by decide⟩
  · simpa using hc
  · simpa using htot
  · rw [hp, hline]

/-- C3 (amended): for a network that returns 10 values per example, a
validation list with one-hot 10-class labels and a batch size `b ≥ 1`, the
run finishes with `correct` the number of evaluated examples whose row
arg-max is the index of the `1` of their label (`matches`) and `total` the
number of evaluated examples (`totalExamples`), and the value it hands to the
log line is `100 * matches / totalExamples` computed in float64 as the source
writes it: the product first, then the quotient, each rounded (no number
when no batch is evaluated); per batch, the dot product of the arg-max
indicator (from `MapMax(outs, 10)` and `MapTranspose` of the all-ones vector
of length `b`) with the expected outputs is the number of matching rows. -/
theorem printSuccessRate_reports_match_ratio (net : Net) (samples : List Sample)
    (b fuel : Nat) (hb : 1 ≤ b) (hlab : LabelsOK samples)
    (hshape : ShapeOK net samples b) (hf : samples.length / b < fuel) :
    (∃ r, printSuccessRate fuel net samples b = Outcome.done r ∧
      r.correct = ((matchCount net samples b : Nat) : ℚ) ∧
      r.total = ((totalExamples samples b : Nat) : ℚ) ∧
      r.printed = lineFloat64 (Float64.ofNat (matchCount net samples b))
        (Float64.ofNat (totalExamples samples b))) ∧
    (∀ i ∈ batchStarts b samples.length, ∀ outs, batchOuts net samples b i = some outs →
      ∃ m mx, MapMax outs 10 = some m ∧
        m.MapTranspose (AddScaler (MakeVector b) 1)
          (MakeVector (Fetch (batchAt samples b i)).Outputs.length) = some mx ∧
        Dot mx (Fetch (batchAt samples b i)).Outputs
          = some ((rowMatches outs (batchAt samples b i) : Nat) : ℚ)) := by
  constructor
  · exact run_counts net samples b fuel hb hlab hshape hf
  · intro i hi outs hnet
    have hib := starts_bound b _ i hi
    have houts : outs.length = b * 10 := by
      have := hshape i hi
      simpa [hnet] using this
    have hlen := batchAt_length samples b i hib
    obtain ⟨m, mx, h1, h2, h3⟩ := batch_dot outs (batchAt samples b i) b hlen
      (batchAt_labelShape samples b i (labels_shape samples hlab)) houts
    refine ⟨m, mx, h1, h2, ?_⟩
    rw [h3, batchScore_eq_matches outs _ (batchAt_labels samples b i hlab) (by rw [hlen, houts])]

/-- Witness of C3 (amended): one right and one wrong example in one batch
of size 2. -/
theorem printSuccessRate_reports_match_ratio_witness :
    1 ≤ 2 ∧ LabelsOK [mkSample 3 3, mkSample 1 2] ∧
    ShapeOK idNet [mkSample 3 3, mkSample 1 2] 2 ∧
    [mkSample 3 3, mkSample 1 2].length / 2 < 2 ∧
    ∃ r, printSuccessRate 2 idNet [mkSample 3 3, mkSample 1 2] 2 = Outcome.done r ∧
      r.correct = ((matchCount idNet [mkSample 3 3, mkSample 1 2] 2 : Nat) : ℚ) ∧
      r.total = ((totalExamples [mkSample 3 3, mkSample 1 2] 2 : Nat) : ℚ) ∧
      r.printed = lineFloat64 (Float64.ofNat (matchCount idNet [mkSample 3 3, mkSample 1 2] 2))
        (Float64.ofNat (totalExamples [mkSample 3 3, mkSample 1 2] 2)) :=
  ⟨by decide, by decide, by decide, by decide,
    (printSuccessRate_reports_match_ratio idNet [mkSample 3 3, mkSample 1 2] 2 2
      (by decide) (by decide) (by decide) (by decide)).1⟩

/-- C10: with `b ≥ 1` the batch loop stops for every validation list: given
more fuel than `n / b` the run never ends out of fuel, and a run that
finishes has gone through the body exactly `n / b` times, at the indices
`0, b, 2b, ...`; on a well-shaped input it does finish, and `n / b` or fewer
evaluations of the loop condition do not suffice.  With `b = 0` the loop
condition stays true and the index stays put: no amount of fuel lets the
run finish, and when the body does not panic the run is out of fuel for
every fuel. -/
theorem printSuccessRate_loop_termination (net : Net) (samples : List Sample)
    (b fuel : Nat) :
    (1 ≤ b → samples.length / b < fuel →
      printSuccessRate fuel net samples b ≠ Outcome.outOfFuel ∧
      ∀ r, printSuccessRate fuel net samples b = Outcome.done r →
        r.slices.length = samples.length / b ∧
        r.slices = fullRanges b samples.length) ∧
    (1 ≤ b → LabelShapeOK samples → ShapeOK net samples b →
      (samples.length / b < fuel →
        ∃ r, printSuccessRate fuel net samples b = Outcome.done r ∧
          r.slices.length = samples.length / b) ∧
      (fuel ≤ samples.length / b →
        printSuccessRate fuel net samples b = Outcome.outOfFuel)) ∧
    (∀ r, printSuccessRate fuel net samples 0 ≠ Outcome.done r) ∧
    (net [] 0 = some [] → printSuccessRate fuel net samples 0 = Outcome.outOfFuel) := by
  refine ⟨?_, ?_, ?_, ?_⟩
  · intro hb hf
    rcases printSuccessRate_total net samples b fuel hb hf with hp | ⟨r, hd, hs, -⟩
    · constructor
      · rw [hp]; intro h; cases h
      · intro r hr; rw [hp] at hr; cases hr
    · constructor
      · rw [hd]; intro h; cases h
      · intro r1 hr
        rw [hd] at hr
        cases hr
        exact ⟨by rw [hs, fullRanges_length], hs⟩
  · intro hb hlab hshape
    constructor
    · intro hf
      refine ⟨_, run_ok net samples b fuel hb hlab hshape hf, ?_⟩
      simp [batchStarts]
    · intro hf
      have h := batchLoop_short net samples b hb hlab fuel 0 ⟨0, 0, []⟩ (by simpa using hf)
        (by
          intro s hs
          apply hshape s
          obtain ⟨k, hk, rfl⟩ := List.mem_map.1 hs
          have hk1 : k < fuel := List.mem_range.1 hk
          exact List.mem_map.2 ⟨k, List.mem_range.2 (by omega), by simp⟩)
      simp only [printSuccessRate, h]
  · intro r hr
    simp only [printSuccessRate] at hr
    cases hl : batchLoop net samples 0 (AddScaler (MakeVector 0) 1) fuel 0 ⟨0, 0, []⟩ with
    | done st => exact batchLoop_zero net samples _ fuel 0 _ st (by omega) hl
    | panic => simp [hl] at hr
    | outOfFuel => simp [hl] at hr
  · intro hnet
    simp only [printSuccessRate, batchLoop_zero_idle net samples hnet fuel 0 _ (Nat.zero_le _)]

/-- Witness of C10: five examples, batch size 2: two passes with fuel 3, out
of fuel with fuel 2; batch size 0 is out of fuel. -/
theorem printSuccessRate_loop_termination_witness :
    (1 ≤ 2 ∧ LabelShapeOK (List.replicate 5 (mkSample 3 3)) ∧
      ShapeOK idNet (List.replicate 5 (mkSample 3 3)) 2 ∧
      (List.replicate 5 (mkSample 3 3)).length / 2 < 3 ∧
      ∃ r, printSuccessRate 3 idNet (List.replicate 5 (mkSample 3 3)) 2 = Outcome.done r ∧
        r.slices.length = (List.replicate 5 (mkSample 3 3)).length / 2) ∧
    (idNet [] 0 = some [] ∧
      printSuccessRate 3 idNet (List.replicate 5 (mkSample 3 3)) 0 = Outcome.outOfFuel) :=
  ⟨⟨by decide, by decide, by decide, by decide,
     ((printSuccessRate_loop_termination idNet (List.replicate 5 (mkSample 3 3)) 2 3).2.1
        (by decide) (by decide) (by decide)).1 (by decide)⟩,
   ⟨rfl, (printSuccessRate_loop_termination idNet (List.replicate 5 (mkSample 3 3)) 0 3).2.2.2
      rfl⟩⟩

/-! ## The claims about `main` -/

/-- C4 (as stated, refuted): with `-successrate` given, six shards on disk
and every call coming back, `main` calls the evaluator and then still runs
the training loop and saves the network. -/
theorem main_successrate_still_trains :
    (parseFlags ⟨some "data", none, none, none, some true⟩).successRate = true ∧
    calls (main sixShards ⟨some "data", none, none, none, some true⟩)
      = [Call.evaluator, Call.training, Call.saving] := by
  decide

/-- C4 (amended): when the data set has been loaded and every call comes
back, `main` with `-successrate` set calls the evaluator once and then runs
the training loop and saves the network; without the flag it does not call
the evaluator and runs the training loop and saves the network. -/
theorem main_calls {S : Type} (env : Env S) (args : Args) (lists : List (List S))
    (tr va : List S) (hdir : (parseFlags args).sampleDir ≠ "")
    (hload : env.load10 (parseFlags args).sampleDir = Except.ok lists)
    (hsplit : splitShards lists = some (tr, va))
    (hev : env.evalReturns = true) (hrun : env.runReturns = true) :
    calls (main env args)
      = if (parseFlags args).successRate = true
        then [Call.evaluator, Call.training, Call.saving]
        else [Call.training, Call.saving] := by
  simp only [main, if_neg hdir, hload, hsplit, mainWithData, trainAndSave, hev, hrun, if_true]
  cases hs : (parseFlags args).successRate <;>
    cases hl : env.loadAny (parseFlags args).netPath <;>
    cases hsv : env.saveAny (parseFlags args).netPath fixedNet <;>
    simp [calls, hsv] <;>
    (split <;> simp [calls])

/-- Witness of C4 (amended): six shards, `-samples data`, no other flag. -/
theorem main_calls_witness :
    (parseFlags ⟨some "data", none, none, none, none⟩).sampleDir ≠ "" ∧
    sixShards.load10 (parseFlags ⟨some "data", none, none, none, none⟩).sampleDir
      = Except.ok [[0], [1], [2], [3], [4], [5]] ∧
    splitShards [[0], [1], [2], [3], [4], [5]] = some ([0, 1, 2, 3, 4], [5]) ∧
    sixShards.evalReturns = true ∧ sixShards.runReturns = true ∧
    calls (main sixShards ⟨some "data", none, none, none, none⟩)
      = if (parseFlags ⟨some "data", none, none, none, none⟩).successRate = true
        then [Call.evaluator, Call.training, Call.saving]
        else [Call.training, Call.saving] :=
  ⟨by decide, rfl, by decide, rfl, rfl,
    main_calls sixShards ⟨some "data", none, none, none, none⟩
      [[0], [1], [2], [3], [4], [5]] [0, 1, 2, 3, 4] [5] (by decide) rfl (by decide) rfl rfl⟩

/-- C5 (the code at the failing input): with `-step 0.5` the flag value is
`1/2`, yet the Rater of the training call gives `1/1000` at every epoch; the
SGD set up by `main` has the rate `1/1000` whatever the flags are. -/
theorem main_rate_ignores_step_flag :
    (parseFlags ⟨some "data", none, some (1 / 2), none, none⟩).stepSize = 1 / 2 ∧
    (∀ epoch : ℚ,
      ratesAt epoch (main sixShards ⟨some "data", none, some (1 / 2), none, none⟩)
        = [1 / 1000]) ∧
    (∀ (f : Flags) (net : AnyNet) (tr va : List Nat) (epoch : ℚ),
      (sgdSetup f net tr va).Rater epoch = 1 / 1000) := by
  refine ⟨by simp [parseFlags], fun _ => rfl, fun _ _ _ _ _ => rfl⟩

/-- C6 (the code at the failing input): with `-batch 32` the evaluator and
the validation slice of the status callback use 32, with no `-batch` they
use 64, and in both runs the SGD minibatch size is 200; the SGD set up by
`main` has minibatch size 200 whatever the flags are. -/
theorem main_sgd_batch_ignores_batch_flag :
    batchSizes (main sixShards ⟨some "data", none, none, some 32, some true⟩)
      = [(0, 32), (1, 200), (2, 32)] ∧
    batchSizes (main sixShards ⟨some "data", none, none, none, some true⟩)
      = [(0, 64), (1, 200), (2, 64)] ∧
    (∀ (f : Flags) (net : AnyNet) (tr va : List Nat),
      (sgdSetup f net tr va).BatchSize = 200 ∧
      (sgdSetup f net tr va).StatusSliceEnd = f.batchSize) := by
  refine ⟨by decide, by decide, fun _ _ _ _ => ⟨rfl, rfl⟩⟩

theorem netsUsed_append {S : Type} (a b : List (Event S)) :
    netsUsed (a ++ b) = netsUsed a ++ netsUsed b := by
  induction a with
  | nil => rfl
  | cons e es ih => cases e <;> simp [netsUsed, ih]

theorem saves_append {S : Type} (a b : List (Event S)) :
    saves (a ++ b) = saves a ++ saves b := by
  induction a with
  | nil => rfl
  | cons e es ih => cases e <;> simp [saves, ih]

theorem calls_append {S : Type} (a b : List (Event S)) :
    calls (a ++ b) = calls a ++ calls b := by
  induction a with
  | nil => rfl
  | cons e es ih => cases e <;> simp [calls, ih]

theorem trainAndSave_nets {S : Type} (env : Env S) (f : Flags) (net : AnyNet)
    (tr va : List S) :
    netsUsed (trainAndSave env f net tr va)
      = if env.runReturns = true then [net, net, net] else [net, net] := by
  cases hr : env.runReturns <;> cases hsv : env.saveAny f.netPath net <;>
    simp [trainAndSave, netsUsed_append, netsUsed, sgdSetup, hr, hsv]

theorem trainAndSave_saves {S : Type} (env : Env S) (f : Flags) (net : AnyNet)
    (tr va : List S) :
    saves (trainAndSave env f net tr va)
      = if env.runReturns = true then [(f.netPath, net)] else [] := by
  cases hr : env.runReturns <;> cases hsv : env.saveAny f.netPath net <;>
    simp [trainAndSave, saves_append, saves, hr, hsv]

theorem trainAndSave_calls {S : Type} (env : Env S) (f : Flags) (net : AnyNet)
    (tr va : List S) :
    calls (trainAndSave env f net tr va)
      = if env.runReturns = true then [Call.training, Call.saving] else [Call.training] := by
  cases hr : env.runReturns <;> cases hsv : env.saveAny f.netPath net <;>
    simp [trainAndSave, calls_append, calls, hr, hsv]

/-- The trace of `main` once the data set is loaded, by the network in use. -/
theorem mainWithData_eq {S : Type} (env : Env S) (f : Flags) (tr va : List S) :
    ∃ msg, mainWithData env f tr va
      = if f.successRate = true then
          [Event.log msg, Event.log "Computing success rate...",
            Event.evaluate ((env.loadAny f.netPath).getD fixedNet) va f.batchSize]
          ++ (if env.evalReturns = true then
                trainAndSave env f ((env.loadAny f.netPath).getD fixedNet) tr va
              else [])
        else
          Event.log msg :: trainAndSave env f ((env.loadAny f.netPath).getD fixedNet) tr va := by
  cases hl : env.loadAny f.netPath with
  | none => exact ⟨"Creating new network...", by simp [mainWithData, hl]⟩
  | some n => exact ⟨"Using existing network.", by simp [mainWithData, hl]⟩

theorem mainWithData_nets {S : Type} (env : Env S) (f : Flags) (tr va : List S) :
    ∀ n ∈ netsUsed (mainWithData env f tr va), n = (env.loadAny f.netPath).getD fixedNet := by
  obtain ⟨msg, h⟩ := mainWithData_eq env f tr va
  intro n hn
  rw [h] at hn
  generalize (env.loadAny f.netPath).getD fixedNet = net at hn ⊢
  by_cases hs : f.successRate = true
  · by_cases he : env.evalReturns = true
    · rw [if_pos hs, if_pos he, netsUsed_append, trainAndSave_nets] at hn
      by_cases hr : env.runReturns = true
      · rw [if_pos hr] at hn; simp [netsUsed] at hn; exact hn
      · rw [if_neg hr] at hn; simp [netsUsed] at hn; exact hn
    · rw [if_pos hs, if_neg he] at hn
      simp [netsUsed] at hn; exact hn
  · rw [if_neg hs] at hn
    have hn1 : n ∈ netsUsed (trainAndSave env f net tr va) := hn
    rw [trainAndSave_nets] at hn1
    by_cases hr : env.runReturns = true
    · rw [if_pos hr] at hn1; simp at hn1; exact hn1
    · rw [if_neg hr] at hn1; simp at hn1; exact hn1

theorem mainWithData_saves {S : Type} (env : Env S) (f : Flags) (tr va : List S) :
    saves (mainWithData env f tr va)
      = if (f.successRate = false ∨ env.evalReturns = true) ∧ env.runReturns = true
        then [(f.netPath, (env.loadAny f.netPath).getD fixedNet)] else [] := by
  obtain ⟨msg, h⟩ := mainWithData_eq env f tr va
  rw [h]
  generalize (env.loadAny f.netPath).getD fixedNet = net
  by_cases hs : f.successRate = true
  · rw [if_pos hs, saves_append]
    by_cases he : env.evalReturns = true
    · rw [if_pos he, trainAndSave_saves]
      by_cases hr : env.runReturns = true <;> simp [saves, hs, he, hr]
    · rw [if_neg he]; simp [saves, hs, he]
  · rw [if_neg hs]
    have h1 : saves (Event.log msg :: trainAndSave env f net tr va)
        = saves (trainAndSave env f net tr va) := rfl
    rw [h1, trainAndSave_saves]
    by_cases hr : env.runReturns = true <;> simp [hs, hr]

theorem mainWithData_calls {S : Type} (env : Env S) (f : Flags) (tr va : List S) :
    calls (mainWithData env f tr va)
      = (if f.successRate = true then [Call.evaluator] else [])
        ++ (if f.successRate = false ∨ env.evalReturns = true then
              Call.training :: (if env.runReturns = true then [Call.saving] else [])
            else []) := by
  obtain ⟨msg, h⟩ := mainWithData_eq env f tr va
  rw [h]
  generalize (env.loadAny f.netPath).getD fixedNet = net
  by_cases hs : f.successRate = true
  · rw [if_pos hs, calls_append]
    by_cases he : env.evalReturns = true
    · rw [if_pos he, trainAndSave_calls]
      by_cases hr : env.runReturns = true <;> simp [calls, hs, he, hr]
    · rw [if_neg he]; simp [calls, hs, he]
  · rw [if_neg hs]
    have h1 : calls (Event.log msg :: trainAndSave env f net tr va)
        = calls (trainAndSave env f net tr va) := rfl
    rw [h1, trainAndSave_calls]
    by_cases hr : env.runReturns = true <;> simp [hs, hr]

theorem main_eq {S : Type} (env : Env S) (args : Args) (lists : List (List S))
    (tr va : List S) (hdir : (parseFlags args).sampleDir ≠ "")
    (hload : env.load10 (parseFlags args).sampleDir = Except.ok lists)
    (hsplit : splitShards lists = some (tr, va)) :
    main env args = mainWithData env (parseFlags args) tr va := by
  simp only [main, if_neg hdir, hload, hsplit]

/-- C7: once the data set is loaded, a failed checkpoint load does not stop
`main`: it logs "Creating new network..." and every network it hands to the
evaluator, the trainer and the save call is the fixed 8-layer network, which
depends neither on the flags nor on the world; after a successful load it
logs "Using existing network." and every such network is the loaded one.
Unless a called evaluator fails to come back, the training call takes place,
and when it comes back exactly one checkpoint is written, to the path of the
`-net` flag, holding the network that was evaluated and trained. -/
theorem main_checkpoint_fallback {S : Type} (env : Env S) (args : Args)
    (lists : List (List S)) (tr va : List S)
    (hdir : (parseFlags args).sampleDir ≠ "")
    (hload : env.load10 (parseFlags args).sampleDir = Except.ok lists)
    (hsplit : splitShards lists = some (tr, va)) :
    (env.loadAny (parseFlags args).netPath = none →
      (main env args).head? = some (Event.log "Creating new network...") ∧
      ∀ n ∈ netsUsed (main env args), n = fixedNet) ∧
    (∀ n0, env.loadAny (parseFlags args).netPath = some n0 →
      (main env args).head? = some (Event.log "Using existing network.") ∧
      ∀ n ∈ netsUsed (main env args), n = n0) ∧
    ((parseFlags args).successRate = false ∨ env.evalReturns = true →
      Call.training ∈ calls (main env args) ∧
      (env.runReturns = true →
        saves (main env args)
          = [((parseFlags args).netPath,
              (env.loadAny (parseFlags args).netPath).getD fixedNet)])) ∧
    (∀ q ∈ saves (main env args),
      q = ((parseFlags args).netPath,
        (env.loadAny (parseFlags args).netPath).getD fixedNet)) ∧
    fixedNet =
      [Layer.sliding 32 32 3 3 3 8 2 2, Layer.batchNorm 8,
       Layer.sliding 15 15 8 4 4 8 1 1, Layer.batchNorm 8,
       Layer.sliding 12 12 8 3 3 16 2 2, Layer.batchNorm 16,
       Layer.fc 400 10, Layer.logSoftmax] := by
  rw [main_eq env args lists tr va hdir hload hsplit]
  have hnets := mainWithData_nets env (parseFlags args) tr va
  have hsaves := mainWithData_saves env (parseFlags args) tr va
  have hcalls := mainWithData_calls env (parseFlags args) tr va
  refine ⟨?_, ?_, ?_, ?_, by decide⟩
  · intro hl
    constructor
    · simp only [mainWithData, hl]; split <;> rfl
    · intro n hn; have := hnets n hn; simpa [hl] using this
  · intro n0 hl
    constructor
    · simp only [mainWithData, hl]; split <;> rfl
    · intro n hn; have := hnets n hn; simpa [hl] using this
  · intro hok
    constructor
    · rw [hcalls, if_pos hok]; simp
    · intro hr; rw [hsaves, if_pos ⟨hok, hr⟩]
  · intro q hq
    rw [hsaves] at hq
    split at hq
    · simpa using hq
    · simp at hq

/-- Witness of C7: six shards, no checkpoint on disk, `-samples data`. -/
theorem main_checkpoint_fallback_witness :
    (parseFlags ⟨some "data", none, none, none, none⟩).sampleDir ≠ "" ∧
    sixShards.load10 (parseFlags ⟨some "data", none, none, none, none⟩).sampleDir
      = Except.ok [[0], [1], [2], [3], [4], [5]] ∧
    splitShards [[0], [1], [2], [3], [4], [5]] = some ([0, 1, 2, 3, 4], [5]) ∧
    sixShards.loadAny (parseFlags ⟨some "data", none, none, none, none⟩).netPath = none ∧
    ((main sixShards ⟨some "data", none, none, none, none⟩).head?
        = some (Event.log "Creating new network...") ∧
      ∀ n ∈ netsUsed (main sixShards ⟨some "data", none, none, none, none⟩), n = fixedNet) :=
  ⟨by decide, rfl, by decide, rfl,
    (main_checkpoint_fallback sixShards ⟨some "data", none, none, none, none⟩
      [[0], [1], [2], [3], [4], [5]] [0, 1, 2, 3, 4] [5] (by decide) rfl (by decide)).1 rfl⟩

/-- C8: with a sliding layer's output side `(in - kernel) / stride + 1`, the
fixed network fed with `32x32x3` meets the shape invariant: sliding layer 1
gives `15x15x8`, the declared input of sliding layer 2, which gives
`12x12x8`, the declared input of sliding layer 3, which gives `5x5x16`, that
is `400 = 16*5*5` values, the input count of the fully connected layer,
whose 10 outputs go to log-softmax; the batch norms have 8, 8 and 16
channels, the filter counts of the sliding layers before them. -/
theorem fixedNet_shape_invariant :
    shapeTrace fixedNet ⟨32, 32, 3⟩
      = some [⟨15, 15, 8⟩, ⟨15, 15, 8⟩, ⟨12, 12, 8⟩, ⟨12, 12, 8⟩,
          ⟨5, 5, 16⟩, ⟨5, 5, 16⟩, ⟨1, 1, 10⟩, ⟨1, 1, 10⟩] ∧
    fixedNet =
      [Layer.sliding 32 32 3 3 3 8 2 2, Layer.batchNorm 8,
       Layer.sliding 15 15 8 4 4 8 1 1, Layer.batchNorm 8,
       Layer.sliding 12 12 8 3 3 16 2 2, Layer.batchNorm 16,
       Layer.fc (16 * 5 * 5) 10, Layer.logSoftmax] ∧
    (Layer.sliding 32 32 3 3 3 8 2 2).outShape ⟨32, 32, 3⟩ = some ⟨15, 15, 8⟩ ∧
    (Layer.sliding 15 15 8 4 4 8 1 1).outShape ⟨15, 15, 8⟩ = some ⟨12, 12, 8⟩ ∧
    (Layer.sliding 12 12 8 3 3 16 2 2).outShape ⟨12, 12, 8⟩ = some ⟨5, 5, 16⟩ ∧
    Shape.count ⟨5, 5, 16⟩ = 400 ∧ 16 * 5 * 5 = 400 ∧
    (Layer.fc (16 * 5 * 5) 10).outShape ⟨5, 5, 16⟩ = some ⟨1, 1, 10⟩ ∧
    (32 - 3) / 2 + 1 = 15 ∧ (15 - 4) / 1 + 1 = 12 ∧ (12 - 3) / 2 + 1 = 5 := by
  decide

/-! ## Training and validation set -/

theorem tagFrom_untag {α : Type} (s : Nat) (l : List α) :
    ∀ o, (tagFrom s o l).map (fun p => p.2.2) = l := by
  induction l with
  | nil => intro o; rfl
  | cons x xs ih => intro o; simp [tagFrom, ih]

theorem tagFrom_shard {α : Type} (s : Nat) (l : List α) :
    ∀ o, ∀ p ∈ tagFrom s o l, p.1 = s ∧ o ≤ p.2.1 := by
  induction l with
  | nil => intro o p hp; simp [tagFrom] at hp
  | cons x xs ih =>
    intro o p hp
    simp only [tagFrom, List.mem_cons] at hp
    rcases hp with rfl | hp
    · exact ⟨rfl, Nat.le_refl _⟩
    · have := ih (o + 1) p hp
      exact ⟨this.1, by omega⟩

theorem tagFrom_nodup {α : Type} (s : Nat) (l : List α) :
    ∀ o, (tagFrom s o l).Nodup := by
  induction l with
  | nil => intro o; simp [tagFrom]
  | cons x xs ih =>
    intro o
    simp only [tagFrom, List.nodup_cons]
    refine ⟨?_, ih (o + 1)⟩
    intro hmem
    have := (tagFrom_shard s xs (o + 1) _ hmem).2
    simp at this

theorem tagShards_shard {α : Type} (lists : List (List α)) :
    ∀ k, ∀ p ∈ NewSampleListAll (tagShardsFrom k lists), k ≤ p.1 := by
  induction lists with
  | nil => intro k p hp; simp [tagShardsFrom, NewSampleListAll] at hp
  | cons l ls ih =>
    intro k p hp
    simp only [tagShardsFrom, NewSampleListAll, List.mem_append] at hp
    rcases hp with hp | hp
    · have := (tagFrom_shard k l 0 p hp).1; omega
    · have := ih (k + 1) p hp; omega

theorem tagShards_nodup {α : Type} (lists : List (List α)) :
    ∀ k, (NewSampleListAll (tagShardsFrom k lists)).Nodup := by
  induction lists with
  | nil => intro k; simp [tagShardsFrom, NewSampleListAll]
  | cons l ls ih =>
    intro k
    simp only [tagShardsFrom, NewSampleListAll]
    rw [List.nodup_append]
    refine ⟨tagFrom_nodup k l 0, ih (k + 1), ?_⟩
    intro p hp1 hp2
    have h1 := (tagFrom_shard k l 0 p hp1).1
    have h2 := tagShards_shard ls (k + 1) p hp2
    omega

/-- C9: for six shards, `main` builds the training set from exactly the
examples of shards 0..4 and the validation set from exactly those of shard
5: together they are all examples, each once and in shard order; followed by
position (shard, offset), every training example comes from a shard below 5
and every validation example from shard 5, so no position feeds both sets;
with equally sized shards the training set is 5 times the validation set. -/
theorem splitShards_partition {α : Type} (lists : List (List α))
    (h6 : lists.length = 6) :
    ∃ tr va trT vaT,
      splitShards lists = some (tr, va) ∧
      splitShards (tagShardsFrom 0 lists) = some (trT, vaT) ∧
      tr = NewSampleListAll (lists.take 5) ∧ va = lists.getD 5 [] ∧
      tr ++ va = NewSampleListAll lists ∧
      trT.map (fun p => p.2.2) = tr ∧ vaT.map (fun p => p.2.2) = va ∧
      (∀ p ∈ trT, p.1 < 5) ∧ (∀ p ∈ vaT, p.1 = 5) ∧ (∀ p ∈ trT, p ∉ vaT) ∧
      (trT ++ vaT).Nodup ∧ trT ++ vaT = NewSampleListAll (tagShardsFrom 0 lists) ∧
      (∀ m, (∀ l ∈ lists, l.length = m) → tr.length = 5 * va.length) := by
  obtain ⟨a, b, c, d, e, f, rfl⟩ : ∃ a b c d e f, lists = [a, b, c, d, e, f] := by
    match lists, h6 with
    | [a, b, c, d, e, f], _ => exact ⟨a, b, c, d, e, f, rfl⟩
  have hall : (tagFrom 0 0 a ++ (tagFrom 1 0 b ++ (tagFrom 2 0 c ++ (tagFrom 3 0 d
      ++ (tagFrom 4 0 e ++ [])))) ++ (tagFrom 5 0 f ++ []))
      = NewSampleListAll (tagShardsFrom 0 [a, b, c, d, e, f]) := by
    simp [tagShardsFrom, NewSampleListAll]
  have htr : ∀ p ∈ tagFrom 0 0 a ++ (tagFrom 1 0 b ++ (tagFrom 2 0 c ++ (tagFrom 3 0 d
      ++ (tagFrom 4 0 e ++ [])))), p.1 < 5 := by
    intro p hp
    simp only [List.mem_append, List.not_mem_nil, or_false] at hp
    rcases hp with hp | hp | hp | hp | hp <;>
      · have hs := (tagFrom_shard _ _ 0 p hp).1
        omega
  have hva : ∀ p ∈ tagFrom 5 0 f ++ [], p.1 = 5 := by
    intro p hp
    simp only [List.append_nil] at hp
    exact (tagFrom_shard _ _ 0 p hp).1
  refine ⟨a ++ (b ++ (c ++ (d ++ (e ++ [])))), f ++ [],
    tagFrom 0 0 a ++ (tagFrom 1 0 b ++ (tagFrom 2 0 c ++ (tagFrom 3 0 d
      ++ (tagFrom 4 0 e ++ [])))), tagFrom 5 0 f ++ [],
    rfl, rfl, rfl, by simp, by simp [NewSampleListAll], by simp [tagFrom_untag],
    by simp [tagFrom_untag], htr, hva, ?_, ?_, hall, ?_⟩
  · intro p hp hq
    have h1 := htr p hp
    have h2 := hva p hq
    omega
  · rw [hall]; exact tagShards_nodup _ 0
  · intro m hm
    have ha := hm a (by simp)
    have hb := hm b (by simp)
    have hc := hm c (by simp)
    have hd := hm d (by simp)
    have he := hm e (by simp)
    have hf := hm f (by simp)
    simp only [List.length_append, List.length_nil, ha, hb, hc, hd, he, hf]
    omega

/-- Witness of C9: six shards of one example each. -/
theorem splitShards_partition_witness :
    [[0], [1], [2], [3], [4], [5]].length = 6 ∧
    ∃ tr va trT vaT,
      splitShards [[0], [1], [2], [3], [4], [5]] = some (tr, va) ∧
      splitShards (tagShardsFrom 0 [[0], [1], [2], [3], [4], [5]]) = some (trT, vaT) ∧
      tr = NewSampleListAll ([[0], [1], [2], [3], [4], [5]].take 5) ∧
      va = [[0], [1], [2], [3], [4], [5]].getD 5 [] ∧
      tr ++ va = NewSampleListAll [[0], [1], [2], [3], [4], [5]] ∧
      trT.map (fun p => p.2.2) = tr ∧ vaT.map (fun p => p.2.2) = va ∧
      (∀ p ∈ trT, p.1 < 5) ∧ (∀ p ∈ vaT, p.1 = 5) ∧ (∀ p ∈ trT, p ∉ vaT) ∧
      (trT ++ vaT).Nodup ∧
      trT ++ vaT = NewSampleListAll (tagShardsFrom 0 [[0], [1], [2], [3], [4], [5]]) ∧
      (∀ m, (∀ l ∈ [[0], [1], [2], [3], [4], [5]], l.length = m) →
        tr.length = 5 * va.length) :=
  ⟨rfl, splitShards_partition [[0], [1], [2], [3], [4], [5]] rfl⟩

end Cifar
